import Mathlib

/-!
Verification of the vulnerability batch-query cache of the `aegis` repository.

Shallow embedding of:
  * `app/models/osv.py` (data model; metadata fields not read by the verified
    code — scores, summaries, package dicts — are kept only where the code
    reads them),
  * `app/modules/osv.py` (severity ranking, TTL policy, batch orchestrator),
  * `app/services/cache.py` (in-memory cache primitives).

Python floats used for clock values are modelled as `Nat`; exceptions are
modelled with `Except`; the mutable global cache is modelled by explicit
state passing.  External effects (the HTTP fetch, entries becoming ready
while polling) are modelled as oracle functions supplied as parameters.
-/

namespace Aegis

/-- Python's `str.upper()` (ASCII, character by character). -/
def pyUpper (s : String) : String := ⟨s.data.map Char.toUpper⟩

/-- Python's `str.lower()` (ASCII, character by character). -/
def pyLower (s : String) : String := ⟨s.data.map Char.toLower⟩

/-- `Severity` from `app/models/osv.py`: a scoring-system label and a score. -/
structure Severity where
  type : String
  score : String
deriving DecidableEq, Repr

/-- `AffectedPackage` from `app/models/osv.py`; only the optional `severity`
list is read by the orchestrator, the other fields are opaque metadata. -/
structure AffectedPackage where
  severity : Option (List Severity) := none
deriving DecidableEq, Repr

/-- `OSVVulnerability` from `app/models/osv.py`; `id`, optional top-level
`severity` list and optional `affected` list (the fields the code reads). -/
structure OSVVulnerability where
  id : String
  severity : Option (List Severity) := none
  affected : Option (List AffectedPackage) := none
deriving DecidableEq, Repr

/-- `QueryVulnerabilities` from `app/models/osv.py`. -/
structure QueryVulnerabilities where
  vulns : List OSVVulnerability := []
deriving DecidableEq, Repr

/-- `OSVBatchResponse` from `app/models/osv.py`. -/
structure OSVBatchResponse where
  results : List QueryVulnerabilities
deriving DecidableEq, Repr

/-- One version specifier of a `packaging` requirement; only its `version`
text is read (`next(iter(req.specifier)).version`). -/
structure Specifier where
  version : String
deriving DecidableEq, Repr

/-- A `packaging.requirements.Requirement`: a name and its specifier set,
modelled as the list produced by iterating the set. -/
structure Requirement where
  name : String
  specifier : List Specifier
deriving DecidableEq, Repr

-- TTLs in seconds, from `app/modules/osv.py`.
def TTL_NONE : Nat := 86400
def TTL_MODERATE : Nat := 43200
def TTL_HIGH : Nat := 14400
def TTL_CRITICAL : Nat := 3600
def TTL_DEFAULT : Nat := 3600

def SEVERITY_ORDER : List String := ["CRITICAL", "HIGH", "MODERATE", "LOW"]

/-- The `SEVERITY_TTL` dict; `none` models a key that is absent. -/
def SEVERITY_TTL (s : String) : Option Nat :=
  if s = "CRITICAL" then some TTL_CRITICAL
  else if s = "HIGH" then some TTL_HIGH
  else if s = "MODERATE" then some TTL_MODERATE
  else if s = "LOW" then some TTL_NONE
  else none

/-- `SEVERITY_ORDER.index(s)`, with `none` modelling the `ValueError` case. -/
def sevIndex (s : String) : Option Nat :=
  SEVERITY_ORDER.findIdx? (fun x => x = s)

/-- Severity rank used to state ranking properties: the position in
`SEVERITY_ORDER`, with unrecognized labels ranked past the end. -/
def sevRank (s : String) : Nat :=
  (sevIndex s).getD SEVERITY_ORDER.length

/-- One iteration of the `highest`-updating loop body in
`_extract_highest_severity`:
`if highest is None or SEVERITY_ORDER.index(sev_type) < SEVERITY_ORDER.index(highest): highest = sev_type`.
`Except.error ()` models the `ValueError` raised by `list.index` on an
unrecognized label (either the new label or the current `highest`). -/
def sevStep (highest : Option String) (sev : Severity) : Except Unit (Option String) :=
  let sevType := pyUpper sev.type
  match highest with
  | none => .ok (some sevType)
  | some h =>
    match sevIndex sevType, sevIndex h with
    | some i, some j => .ok (if i < j then some sevType else some h)
    | _, _ => .error ()

/-- The affected-package inner loop of `_extract_highest_severity`
(`if aff.severity: for sev in aff.severity: ...`; a `None` list iterates
nothing, like the falsy check). -/
def affStep (highest : Option String) (aff : AffectedPackage) : Except Unit (Option String) :=
  (aff.severity.getD []).foldlM sevStep highest

/-- The per-vulnerability body of `_extract_highest_severity`: top-level
severities first, then the affected-package severities. -/
def vulnStep (highest : Option String) (v : OSVVulnerability) : Except Unit (Option String) := do
  let h1 ← (v.severity.getD []).foldlM sevStep highest
  (v.affected.getD []).foldlM affStep h1

/-- Python's `highest or "LOW"`: both `None` and the empty string are
falsy, so either collapses to `"LOW"`. -/
def pyOrLow (h : Option String) : String :=
  match h with
  | none => "LOW"
  | some s => if s = "" then "LOW" else s

/-- `_extract_highest_severity` from `app/modules/osv.py`:
scans all severities, returns `highest or "LOW"`; `Except.error ()` models an
escaping `ValueError`. -/
def extract_highest_severity (vulns : List OSVVulnerability) : Except Unit String := do
  let h ← vulns.foldlM vulnStep none
  return pyOrLow h

/-- `_calculate_ttl` from `app/modules/osv.py`. -/
def calculate_ttl (vulns : List OSVVulnerability) : Except Unit Nat :=
  if vulns.isEmpty then .ok TTL_NONE
  else do
    let highest ← extract_highest_severity vulns
    return (SEVERITY_TTL highest).getD TTL_DEFAULT

/-- All severity entries of one vulnerability, in the scan order of
`_extract_highest_severity`. -/
def vulnSevs (v : OSVVulnerability) : List Severity :=
  v.severity.getD [] ++ (v.affected.getD []).flatMap (fun a => a.severity.getD [])

/-- All severity entries of a vulnerability list, in scan order. -/
def allSevs (vulns : List OSVVulnerability) : List Severity :=
  vulns.flatMap vulnSevs

/-! ## Cache store (`app/services/cache.py`) -/

/-- `CacheEntry` from `app/services/cache.py`: status is `'fetching'` or
`'ready'`; `data` holds the query result of a ready entry (`None` by
default); `expiry_timestamp` may be absent. -/
structure CacheEntry where
  status : String
  data : Option QueryVulnerabilities := none
  expiry_timestamp : Option Nat := none
deriving DecidableEq, Repr

/-- The `_store` dict of `InMemoryAsyncCache`, as a total lookup function.
Every primitive of the store runs under one lock, so each is one atomic
step on this state. -/
def Cache : Type := String → Option CacheEntry

/-- `InMemoryAsyncCache.get`. -/
def Cache.get (c : Cache) (k : String) : Option CacheEntry := c k

/-- `InMemoryAsyncCache.set` (unconditional upsert). -/
def Cache.set (c : Cache) (k : String) (e : CacheEntry) : Cache :=
  fun x => if x = k then some e else c x

/-- `InMemoryAsyncCache.add_if_not_exists`: atomically insert only when the
key is absent, reporting whether the insert happened. -/
def add_if_not_exists (c : Cache) (k : String) (e : CacheEntry) : Cache × Bool :=
  match c k with
  | some _ => (c, false)
  | none => (c.set k e, true)

/-- `_store.pop(key, None)` (used by the orchestrator under the lock to
clear a `:refresh` guard). -/
def Cache.pop (c : Cache) (k : String) : Cache :=
  fun x => if x = k then none else c x

/-- The `fetching` placeholder entry `CacheEntry(status='fetching')`. -/
def fetchingEntry : CacheEntry := ⟨"fetching", none, none⟩

/-! ## Batch query orchestrator (`app/modules/osv.py`, `query_osv_batch`)

The orchestrator is embedded as a pure function of the initial cache plus
three oracles for its external effects:
  * `fetch qs` — the single batched `httpx` POST; `Except.error ()` models a
    transport failure, a non-2xx status (`raise_for_status`) or a malformed
    body, `Except.ok rs` the parsed `results` list;
  * `waitO k` — the outcome of `wait_for_ready` polling for an entry that is
    not ready at the time of the call: `some d` if it transitions to ready
    with data `d` within the timeout, `none` on timeout;
  * `now` / `now2` — the `time.time()` readings of phase 1 and phase 2.
-/

/-- Python exceptions the orchestrator can raise. -/
inductive PyError
  | stopIteration
  | httpError
  | keyError
  | valueError
  | validationError
deriving DecidableEq, Repr

/-- The `results` dict: key to recorded value (`entry.data` may be `None`,
hence the inner `Option`). -/
def ResultsMap : Type := String → Option (Option QueryVulnerabilities)

/-- Dict update `m[k] = v`. -/
def mapSet {α : Type} (m : String → Option α) (k : String) (v : α) :
    String → Option α :=
  fun x => if x = k then some v else m x

/-- Key derivation of `query_osv_batch`:
`version = str(next(iter(req.specifier)).version)` (raising `StopIteration`
on an empty specifier set) and `key = f"{req.name.lower()}@{version}"`. -/
def deriveKey (req : Requirement) : Except PyError String :=
  match req.specifier.head? with
  | none => .error .stopIteration
  | some sp => .ok (pyLower req.name ++ "@" ++ sp.version)

/-- The key-derivation loop of `query_osv_batch`: builds `dep_keys` in input
order and the `dep_map` dict (later requirements overwrite earlier ones at
an equal key). -/
def phase0 : List Requirement → (String → Option Requirement) →
    Except PyError (List String × (String → Option Requirement))
  | [], m => .ok ([], m)
  | req :: rest, m => do
    let k ← deriveKey req
    let (ks, m') ← phase0 rest (fun x => if x = k then some req else m x)
    return (k :: ks, m')

/-- The phase-1 staleness test
`entry.expiry_timestamp and entry.expiry_timestamp > now`: an absent
timestamp is falsy, so it counts as stale. -/
def expiryFresh (expiry : Option Nat) (now : Nat) : Bool :=
  match expiry with
  | some t => now < t
  | none => false

/-- Mutable state of one orchestrator call during phase 1. -/
structure RunState where
  resultsMap : ResultsMap
  to_fetch : List String
  waiters : List String
  cache : Cache

/-- Phase 1 of `query_osv_batch` for one key: check the cache and lock the
miss, serve a ready entry (claiming a `:refresh` guard when stale), or join
the waiters of an in-flight fetch.  An entry whose status is neither
`'ready'` nor `'fetching'` falls through all branches and is dropped. -/
def triage1 (now : Nat) (s : RunState) (k : String) : RunState :=
  match s.cache.get k with
  | none =>
    let r := add_if_not_exists s.cache k fetchingEntry
    if r.2 then { s with cache := r.1, to_fetch := s.to_fetch ++ [k] }
    else { s with cache := r.1, waiters := s.waiters ++ [k] }
  | some e =>
    if e.status = "ready" then
      if expiryFresh e.expiry_timestamp now then
        { s with resultsMap := mapSet s.resultsMap k e.data }
      else
        let r := add_if_not_exists s.cache (k ++ ":refresh") fetchingEntry
        if r.2 then
          { s with resultsMap := mapSet s.resultsMap k e.data, cache := r.1,
                   to_fetch := s.to_fetch ++ [k] }
        else { s with resultsMap := mapSet s.resultsMap k e.data, cache := r.1 }
    else if e.status = "fetching" then
      { s with waiters := s.waiters ++ [k] }
    else s

/-- The phase-2 query-building loop: for each key of `to_fetch`, look up
`dep_map[key]` (`KeyError` if absent), re-derive the version from the first
specifier and build the purl `pkg:pypi/{req.name}@{version}` (note: the
name is not lowercased here, unlike in the cache key). -/
def buildQueries (depMap : String → Option Requirement) :
    List String → Except PyError (List String)
  | [] => .ok []
  | k :: rest =>
    match depMap k with
    | none => .error .keyError
    | some req =>
      match req.specifier.head? with
      | none => .error .stopIteration
      | some sp => do
        let qs ← buildQueries depMap rest
        return ("pkg:pypi/" ++ req.name ++ "@" ++ sp.version) :: qs

/-- The phase-2 store-back loop over `zip(fetch_keys, batch.results)`: for
each pair, compute the TTL (`_calculate_ttl` may raise `ValueError`, which
aborts the loop with earlier mutations kept), set the primary entry ready
with expiry `time.time() + ttl`, pop the `:refresh` guard, and record the
result. -/
def fetchLoop (now2 : Nat) :
    List (String × QueryVulnerabilities) → Cache → ResultsMap →
    Cache × ResultsMap × Option PyError
  | [], c, m => (c, m, none)
  | (k, res) :: rest, c, m =>
    match calculate_ttl res.vulns with
    | .error _ => (c, m, some .valueError)
    | .ok ttl =>
      let c' := (c.set k ⟨"ready", some res, some (now2 + ttl)⟩).pop (k ++ ":refresh")
      fetchLoop now2 rest c' (mapSet m k (some res))

/-- The effective outcome of `wait_for_ready(key)` for one waiter: if the
entry is already ready its `data` is returned at the first poll; otherwise
the oracle supplies the eventual outcome (`none` = timeout).  A ready entry
whose `data` is `None` is indistinguishable from a timeout for the caller. -/
def waitData (c : Cache) (waitO : String → Option QueryVulnerabilities)
    (k : String) : Option QueryVulnerabilities :=
  match c.get k with
  | some e => if e.status = "ready" then e.data else waitO k
  | none => waitO k

/-- Phase 3 of `query_osv_batch`: each waiter records the awaited data, or
an empty `QueryVulnerabilities` on timeout. -/
def waitLoop (c : Cache) (waitO : String → Option QueryVulnerabilities) :
    List String → ResultsMap → ResultsMap
  | [], m => m
  | k :: rest, m =>
    let v : QueryVulnerabilities :=
      match waitData c waitO k with
      | some d => d
      | none => ⟨[]⟩
    waitLoop c waitO rest (mapSet m k (some v))

/-- The final `[results[k] for k in dep_keys]`: a missing key raises
`KeyError`; a recorded `None` value fails `OSVBatchResponse` validation. -/
def assemble (m : ResultsMap) : List String → Except PyError (List QueryVulnerabilities)
  | [] => .ok []
  | k :: rest =>
    match m k with
    | none => .error .keyError
    | some none => .error .validationError
    | some (some v) => do
      let vs ← assemble m rest
      return v :: vs

/-- The state of one `query_osv_batch` call after phases 0–2 (key
derivation, triage, fetch and store-back): derived keys, the phase-1
partition, the cache, the `results` dict so far, the queries of each
external POST issued, and the pending exception if one was raised. -/
structure Phase12 where
  depKeys : List String
  to_fetch : List String
  waiters : List String
  cache : Cache
  resultsMap : ResultsMap
  calls : List (List String)
  err : Option PyError

/-- Phases 0–2 of `query_osv_batch`: derive keys, triage every key against
the cache, and — when something must be fetched — build the purl queries,
issue the single batched POST and store the fetched entries back.  An
exception aborts the call with the mutations made so far kept. -/
def phase12 (fetch : List String → Except Unit (List QueryVulnerabilities))
    (now now2 : Nat) (c0 : Cache) (reqs : List Requirement) : Phase12 :=
  match phase0 reqs (fun _ => none) with
  | .error e => ⟨[], [], [], c0, fun _ => none, [], some e⟩
  | .ok (ks, depMap) =>
    let s1 := ks.foldl (triage1 now) ⟨fun _ => none, [], [], c0⟩
    if s1.to_fetch.isEmpty then
      ⟨ks, s1.to_fetch, s1.waiters, s1.cache, s1.resultsMap, [], none⟩
    else
      match buildQueries depMap s1.to_fetch with
      | .error e => ⟨ks, s1.to_fetch, s1.waiters, s1.cache, s1.resultsMap, [], some e⟩
      | .ok queries =>
        match fetch queries with
        | .error _ =>
          ⟨ks, s1.to_fetch, s1.waiters, s1.cache, s1.resultsMap, [queries],
            some .httpError⟩
        | .ok rs =>
          match fetchLoop now2 (s1.to_fetch.zip rs) s1.cache s1.resultsMap with
          | (c2, m2, some e) => ⟨ks, s1.to_fetch, s1.waiters, c2, m2, [queries], some e⟩
          | (c2, m2, none) => ⟨ks, s1.to_fetch, s1.waiters, c2, m2, [queries], none⟩

/-- Everything observable about one `query_osv_batch` call: derived keys,
the phase-1 partition, the final cache state, the final `results` dict, the
queries of each external POST issued, and the returned value or exception. -/
structure QueryRun where
  depKeys : List String
  to_fetch : List String
  waiters : List String
  cache : Cache
  resultsMap : ResultsMap
  calls : List (List String)
  result : Except PyError OSVBatchResponse

/-- `query_osv_batch` from `app/modules/osv.py`, with all intermediate
observables retained: phases 0–2 followed — when no exception is pending —
by phase 3 (awaiting the in-flight keys) and the final in-order assembly. -/
def queryCore (fetch : List String → Except Unit (List QueryVulnerabilities))
    (waitO : String → Option QueryVulnerabilities)
    (now now2 : Nat) (c0 : Cache) (reqs : List Requirement) : QueryRun :=
  match phase12 fetch now now2 c0 reqs with
  | ⟨ks, tf, ws, c, m, calls, some e⟩ => ⟨ks, tf, ws, c, m, calls, .error e⟩
  | ⟨ks, tf, ws, c, m, calls, none⟩ =>
    let m3 := waitLoop c waitO ws m
    ⟨ks, tf, ws, c, m3, calls, (assemble m3 ks).map OSVBatchResponse.mk⟩

/-- The returned value (or exception) of `query_osv_batch`. -/
def query_osv_batch (fetch : List String → Except Unit (List QueryVulnerabilities))
    (waitO : String → Option QueryVulnerabilities)
    (now now2 : Nat) (c0 : Cache) (reqs : List Requirement) :
    Except PyError OSVBatchResponse :=
  (queryCore fetch waitO now now2 c0 reqs).result

/-! ## Two concurrent orchestrator calls racing on one uncached key

`query_osv_batch` runs on an asyncio event loop: callers interleave only at
`await` points, and every cache primitive is atomic (one lock).  For the
at-most-one-fetch claim we model two logical callers that each execute the
per-key protocol of `query_osv_batch` for the same key `k`, with one atomic
transition per cache operation, external fetch, or poll:

  get (phase-1 triage branch) → add_if_not_exists on a miss →
  external fetch → set ready → (loser) poll until ready or out of fuel.

A schedule is the list of which caller takes the next step.  `fuel0` is the
number of polls `wait_for_ready` performs before its timeout
(`timeout / poll_interval`), and `exp` the expiry the winner stores
(`time.time() + ttl`).  The stale-refresh triage branch is modelled as an
absorbing control state; it is unreachable while `now < exp`. -/

/-- Control state of one caller racing on key `k`. -/
inductive Ctl
  | start
  | claiming
  | fetchingNow
  | storing
  | waitingPoll (fuel : Nat)
  | doneC (res : QueryVulnerabilities) (timedOut : Bool)
  | staleRefresh
deriving DecidableEq, Repr

/-- One caller: control state plus whether it has issued the external fetch. -/
structure CallerSt where
  ctl : Ctl
  fetched : Bool
deriving DecidableEq, Repr

/-- The shared cache plus both callers. -/
structure Sys where
  cache : Cache
  a : CallerSt
  b : CallerSt

/-- One atomic step of a caller on key `k`; `d` is the external fetch
result, `exp` the stored expiry, `now` the triage clock, `fuel0` the poll
budget of `wait_for_ready`. -/
def callerStep (k : String) (d : QueryVulnerabilities) (exp now fuel0 : Nat)
    (c : Cache) (cs : CallerSt) : Cache × CallerSt :=
  match cs.ctl with
  | .start =>
    match c.get k with
    | none => (c, { cs with ctl := .claiming })
    | some e =>
      if e.status = "ready" then
        if expiryFresh e.expiry_timestamp now then
          (c, { cs with ctl := .doneC (e.data.getD ⟨[]⟩) false })
        else (c, { cs with ctl := .staleRefresh })
      else if e.status = "fetching" then
        (c, { cs with ctl := .waitingPoll fuel0 })
      else (c, cs)
  | .claiming =>
    let r := add_if_not_exists c k fetchingEntry
    if r.2 then (r.1, { cs with ctl := .fetchingNow })
    else (r.1, { cs with ctl := .waitingPoll fuel0 })
  | .fetchingNow => (c, { ctl := .storing, fetched := true })
  | .storing => (c.set k ⟨"ready", some d, some exp⟩, { cs with ctl := .doneC d false })
  | .waitingPoll 0 => (c, { cs with ctl := .doneC ⟨[]⟩ true })
  | .waitingPoll (n + 1) =>
    match c.get k with
    | some e =>
      if e.status = "ready" then (c, { cs with ctl := .doneC (e.data.getD ⟨[]⟩) false })
      else (c, { cs with ctl := .waitingPoll n })
    | none => (c, { cs with ctl := .waitingPoll n })
  | .doneC _ _ => (c, cs)
  | .staleRefresh => (c, cs)

/-- Step the scheduled caller (`true` = first caller). -/
def sysStep (k : String) (d : QueryVulnerabilities) (exp now fuel0 : Nat)
    (s : Sys) (who : Bool) : Sys :=
  if who then
    ⟨(callerStep k d exp now fuel0 s.cache s.a).1,
      (callerStep k d exp now fuel0 s.cache s.a).2, s.b⟩
  else
    ⟨(callerStep k d exp now fuel0 s.cache s.b).1, s.a,
      (callerStep k d exp now fuel0 s.cache s.b).2⟩

/-- Initial state: key uncached, both callers about to triage. -/
def initSys : Sys := ⟨fun _ => none, ⟨.start, false⟩, ⟨.start, false⟩⟩

/-- Run a schedule from the initial state. -/
def runSched (k : String) (d : QueryVulnerabilities) (exp now fuel0 : Nat)
    (sched : List Bool) : Sys :=
  sched.foldl (sysStep k d exp now fuel0) initSys

/-- A caller currently holds the `fetching` claim on the key (it won
`add_if_not_exists` and has not yet published the ready entry). -/
def holdsClaim (cs : CallerSt) : Prop :=
  cs.ctl = .fetchingNow ∨ cs.ctl = .storing

instance (cs : CallerSt) : Decidable (holdsClaim cs) := by
  unfold holdsClaim; infer_instance

/-- A caller has finished its call. -/
def isDone (cs : CallerSt) : Prop :=
  ∃ r t, cs.ctl = .doneC r t

/-- Ownership stages of the `fetching` claim in the race model: the claim
holder is fetching (not yet counted) or storing (fetch done). -/
def ownerInv (cs : CallerSt) : Prop :=
  (cs.ctl = .fetchingNow ∧ cs.fetched = false) ∨
  (cs.ctl = .storing ∧ cs.fetched = true)

/-- The non-owner while the claim is held: triaging, about to claim,
polling, or timed out — never having fetched. -/
def otherInv (cs : CallerSt) : Prop :=
  (cs.ctl = .start ∨ cs.ctl = .claiming ∨ (∃ n, cs.ctl = .waitingPoll n) ∨
    cs.ctl = .doneC ⟨[]⟩ true) ∧ cs.fetched = false

/-- The claim winner after publishing the ready entry. -/
def winnerDone (d : QueryVulnerabilities) (cs : CallerSt) : Prop :=
  cs.ctl = .doneC d false ∧ cs.fetched = true

/-- The other caller once the ready entry is published: still on its way,
finished with the published data, or timed out earlier — never having
fetched. -/
def loserInv (d : QueryVulnerabilities) (cs : CallerSt) : Prop :=
  (cs.ctl = .start ∨ cs.ctl = .claiming ∨ (∃ n, cs.ctl = .waitingPoll n) ∨
    cs.ctl = .doneC d false ∨ cs.ctl = .doneC ⟨[]⟩ true) ∧ cs.fetched = false

/-- Reachability invariant of the two-caller race on key `k`: the key is
absent (nobody past claiming), claimed (exactly one owner in flight), or
published (exactly one caller fetched; any finished caller that did not
time out holds the fetched data). -/
def InvSym (k : String) (d : QueryVulnerabilities) (exp : Nat)
    (c : Cache) (x y : CallerSt) : Prop :=
  (c k = none ∧ (x.ctl = .start ∨ x.ctl = .claiming) ∧
    (y.ctl = .start ∨ y.ctl = .claiming) ∧
    x.fetched = false ∧ y.fetched = false) ∨
  (c k = some fetchingEntry ∧
    ((ownerInv x ∧ otherInv y) ∨ (ownerInv y ∧ otherInv x))) ∨
  (c k = some ⟨"ready", some d, some exp⟩ ∧
    ((winnerDone d x ∧ loserInv d y) ∨ (winnerDone d y ∧ loserInv d x)))

/-! ## Concrete constants used by witnesses and counterexamples -/

/-- `Requirement("Foo==1.0.0")`. -/
def reqFoo : Requirement := ⟨"Foo", [⟨"1.0.0"⟩]⟩

/-- A stale cached result (one vulnerability with id `OLD`). -/
def qvStale : QueryVulnerabilities := ⟨[⟨"OLD", none, none⟩]⟩

/-- A freshly fetched result (one vulnerability with id `NEW`). -/
def qvFresh : QueryVulnerabilities := ⟨[⟨"NEW", none, none⟩]⟩

/-- The empty cache. -/
def emptyCache : Cache := fun _ => none

/-- A fetch oracle answering every query in the batch with `qvFresh`. -/
def okFetch : List String → Except Unit (List QueryVulnerabilities) :=
  fun qs => .ok (qs.map (fun _ => qvFresh))

/-- A fetch oracle modelling a failing upstream (transport error or
non-success status). -/
def badFetch : List String → Except Unit (List QueryVulnerabilities) :=
  fun _ => .error ()

/-- A wait oracle on which every wait times out. -/
def noWait : String → Option QueryVulnerabilities := fun _ => none

/-- Cache for the stale-refresh scenario: `foo@1.0.0` is ready with data
`qvStale` and an expiry (5) in the past of the call clock (10). -/
def staleCache : Cache :=
  fun x => if x = "foo@1.0.0" then some ⟨"ready", some qvStale, some 5⟩ else none

/-- Cache for the absent-expiry scenario: `foo@1.0.0` is ready with data
`qvStale` and no expiry timestamp. -/
def noExpiryCache : Cache :=
  fun x => if x = "foo@1.0.0" then some ⟨"ready", some qvStale, none⟩ else none

/-- Cache in which `foo@1.0.0` has an in-flight `fetching` entry owned by
another caller. -/
def inflightCache : Cache :=
  fun x => if x = "foo@1.0.0" then some fetchingEntry else none

/-- A wait oracle on which only `foo@1.0.0` becomes ready (with `qvFresh`)
within the timeout. -/
def oneWait : String → Option QueryVulnerabilities :=
  fun k => if k = "foo@1.0.0" then some qvFresh else none

/-- `staleCache` with the refresh guard for `foo@1.0.0` already held by a
concurrent caller. -/
def staleGuardCache : Cache :=
  fun x =>
    if x = "foo@1.0.0:refresh" then some fetchingEntry
    else if x = "foo@1.0.0" then some ⟨"ready", some qvStale, some 5⟩
    else none

/-- `noExpiryCache` with the refresh guard for `foo@1.0.0` already held. -/
def noExpiryGuardCache : Cache :=
  fun x =>
    if x = "foo@1.0.0:refresh" then some fetchingEntry
    else if x = "foo@1.0.0" then some ⟨"ready", some qvStale, none⟩
    else none

/-- A vulnerability whose only two severity entries carry unrecognized
category labels. -/
def vulnTwoWeird : OSVVulnerability :=
  ⟨"V1", some [⟨"WEIRD", "1"⟩, ⟨"ODD", "2"⟩], none⟩

/-- A vulnerability whose single severity entry carries an unrecognized
category label. -/
def vulnOneWeird : OSVVulnerability :=
  ⟨"V1", some [⟨"WEIRD", "1"⟩], none⟩

/-! ## Severity-scan machinery -/

/-- `sevStep` with the uppercased label taken as input; the whole scan of
`_extract_highest_severity` is a fold of this step over the uppercased
labels in scan order. -/
def tstep (highest : Option String) (t : String) : Except Unit (Option String) :=
  match highest with
  | none => .ok (some t)
  | some h =>
    match sevIndex t, sevIndex h with
    | some i, some j => .ok (if i < j then some t else some h)
    | _, _ => .error ()

/-- The uppercased severity labels of a vulnerability list, in scan order. -/
def sevLabels (vulns : List OSVVulnerability) : List String :=
  (allSevs vulns).map (fun s => pyUpper s.type)

/-- Well-formed cache contents: every entry is a `fetching` placeholder or
a `ready` entry carrying data — the only entry shapes the code ever
stores. -/
def WFCache (c : Cache) : Prop :=
  ∀ k e, c k = some e →
    e.status = "fetching" ∨ (e.status = "ready" ∧ e.data.isSome)

/-- During one orchestrator call, key `k` is accounted for: it already has
a recorded (non-`None`) result, or it is scheduled for fetching, or it is
waiting on another caller's fetch. -/
def CovD (s : RunState) (k : String) : Prop :=
  (∃ v, s.resultsMap k = some (some v)) ∨ k ∈ s.to_fetch ∨ k ∈ s.waiters

/-- A vulnerability whose single severity entry carries the empty-string
label (falsy in Python). -/
def vulnEmptyType : OSVVulnerability := ⟨"V4", some [⟨"", "0"⟩], none⟩

/-- A vulnerability with one top-level `HIGH` severity. -/
def vulnHigh : OSVVulnerability := ⟨"V2", some [⟨"HIGH", "8.0"⟩], none⟩

/-- A vulnerability with one `CRITICAL` severity on an affected package. -/
def vulnCrit : OSVVulnerability := ⟨"V3", none, some [⟨some [⟨"CRITICAL", "9.0"⟩]⟩]⟩

end Aegis

namespace Aegis

theorem except_bind_ok {ε α β : Type} (x : Except ε α) (f : α → Except ε β) (c : β) :
    x >>= f = .ok c ↔ ∃ a, x = .ok a ∧ f a = .ok c := by
  cases x <;> simp [Bind.bind, Except.bind]

theorem affFold_eq (affs : List AffectedPackage) (st : Option String) :
    affs.foldlM affStep st =
      (affs.flatMap (fun a => a.severity.getD [])).foldlM sevStep st := by
  induction affs generalizing st with
  | nil => rfl
  | cons a affs ih =>
    rw [List.flatMap_cons, List.foldlM_append, List.foldlM_cons]
    show ((a.severity.getD []).foldlM sevStep st >>= fun st1 => affs.foldlM affStep st1) = _
    cases hx : (a.severity.getD []).foldlM sevStep st <;>
      simp [Bind.bind, Except.bind, ih]

theorem vulnFold_eq (vulns : List OSVVulnerability) (st : Option String) :
    vulns.foldlM vulnStep st = (allSevs vulns).foldlM sevStep st := by
  induction vulns generalizing st with
  | nil => rfl
  | cons v vulns ih =>
    rw [List.foldlM_cons, allSevs, List.flatMap_cons, List.foldlM_append, ← allSevs]
    show (vulnStep st v >>= fun st1 => vulns.foldlM vulnStep st1) = _
    have hv : vulnStep st v = (vulnSevs v).foldlM sevStep st := by
      unfold vulnStep vulnSevs
      rw [List.foldlM_append]
      cases hx : (v.severity.getD []).foldlM sevStep st <;>
        simp [Bind.bind, Except.bind, affFold_eq]
    rw [hv]
    cases hx : (vulnSevs v).foldlM sevStep st <;>
      simp [Bind.bind, Except.bind, ih]

theorem sevFold_eq_tfold (sevs : List Severity) (st : Option String) :
    sevs.foldlM sevStep st =
      (sevs.map (fun s => pyUpper s.type)).foldlM tstep st := by
  rw [List.foldlM_map]
  rfl

theorem extract_eq_tfold (vulns : List OSVVulnerability) :
    extract_highest_severity vulns =
      ((sevLabels vulns).foldlM tstep none >>= fun st => .ok (pyOrLow st)) := by
  unfold extract_highest_severity sevLabels
  rw [vulnFold_eq, sevFold_eq_tfold]
  rfl

theorem rank_of_index {t : String} {i : Nat} (h : sevIndex t = some i) :
    sevRank t = i := by
  simp [sevRank, h]

/-- Success of a scan step from a `some` state forces both labels to be
recognized, and the state's rank never increases. -/
theorem tfold_ok_some (ts : List String) :
    ∀ (h : String) (st' : Option String),
      ts.foldlM tstep (some h) = .ok st' →
      ∃ h', st' = some h' ∧ (h' = h ∨ h' ∈ ts) ∧ sevRank h' ≤ sevRank h ∧
        ∀ t ∈ ts, sevRank h' ≤ sevRank t := by
  induction ts with
  | nil =>
    intro h st' hok
    refine ⟨h, ?_, Or.inl rfl, le_refl _, by simp⟩
    simpa [List.foldlM_nil, Pure.pure, Except.pure] using hok.symm
  | cons t ts ih =>
    intro h st' hok
    rw [List.foldlM_cons] at hok
    rcases (except_bind_ok _ _ _).mp hok with ⟨st1, h1, h2⟩
    unfold tstep at h1
    cases hi : sevIndex t with
    | none => simp [hi] at h1
    | some i =>
      cases hj : sevIndex h with
      | none => simp [hi, hj] at h1
      | some j =>
        simp only [hi, hj] at h1
        injection h1 with h1
        subst h1
        by_cases hij : i < j
        · rw [if_pos hij] at h2
          rcases ih _ _ h2 with ⟨h', hst', hmem, hle, hall⟩
          refine ⟨h', hst', ?_, ?_, ?_⟩
          · rcases hmem with rfl | hm
            · exact Or.inr (List.mem_cons_self _ _)
            · exact Or.inr (List.mem_cons_of_mem _ hm)
          · calc sevRank h' ≤ sevRank t := hle
              _ ≤ sevRank h := by rw [rank_of_index hi, rank_of_index hj]; omega
          · intro t' ht'
            rcases List.mem_cons.mp ht' with rfl | hm
            · exact hle
            · exact hall _ hm
        · rw [if_neg hij] at h2
          rcases ih _ _ h2 with ⟨h', hst', hmem, hle, hall⟩
          refine ⟨h', hst', ?_, hle, ?_⟩
          · rcases hmem with rfl | hm
            · exact Or.inl rfl
            · exact Or.inr (List.mem_cons_of_mem _ hm)
          · intro t' ht'
            rcases List.mem_cons.mp ht' with rfl | hm
            · calc sevRank h' ≤ sevRank h := hle
                _ ≤ sevRank t' := by rw [rank_of_index hi, rank_of_index hj]; omega
            · exact hall _ hm

/-- Success of the scan from the initial `None` state: either no labels
were scanned, or the final label is one of the scanned ones and has
minimal rank among them. -/
theorem tfold_ok_none (ts : List String) (st' : Option String)
    (hok : ts.foldlM tstep none = .ok st') :
    (ts = [] ∧ st' = none) ∨
      ∃ h', st' = some h' ∧ h' ∈ ts ∧ ∀ t ∈ ts, sevRank h' ≤ sevRank t := by
  cases ts with
  | nil =>
    left
    constructor
    · rfl
    · simpa [List.foldlM_nil, Pure.pure, Except.pure] using hok.symm
  | cons t ts =>
    right
    rw [List.foldlM_cons] at hok
    rcases (except_bind_ok _ _ _).mp hok with ⟨st1, h1, h2⟩
    have hst1 : st1 = some t := by
      simpa [tstep, Pure.pure, Except.pure] using h1.symm
    subst hst1
    rcases tfold_ok_some ts t st' h2 with ⟨h', hst', hmem, hle, hall⟩
    refine ⟨h', hst', ?_, ?_⟩
    · rcases hmem with rfl | hm
      · exact List.mem_cons_self _ _
      · exact List.mem_cons_of_mem _ hm
    · intro t' ht'
      rcases List.mem_cons.mp ht' with rfl | hm
      · exact hle
      · exact hall _ hm

end Aegis

namespace Aegis

theorem extract_ok_elim {vulns : List OSVVulnerability} {h : String}
    (he : extract_highest_severity vulns = .ok h) :
    ∃ st, (sevLabels vulns).foldlM tstep none = .ok st ∧ h = pyOrLow st := by
  rw [extract_eq_tfold] at he
  rcases (except_bind_ok _ _ _).mp he with ⟨st, h1, h2⟩
  refine ⟨st, h1, ?_⟩
  injection h2 with h2
  exact h2.symm

theorem ttl_none_of_unrecognized {t : String} (h : sevIndex t = none) :
    SEVERITY_TTL t = none := by
  by_cases h1 : t = "CRITICAL"
  · rw [h1] at h; exact absurd h (by decide)
  by_cases h2 : t = "HIGH"
  · rw [h2] at h; exact absurd h (by decide)
  by_cases h3 : t = "MODERATE"
  · rw [h3] at h; exact absurd h (by decide)
  by_cases h4 : t = "LOW"
  · rw [h4] at h; exact absurd h (by decide)
  simp [SEVERITY_TTL, h1, h2, h3, h4]

theorem tfold_err (ts : List String) :
    ∀ h : String,
      ((sevIndex h = none ∧ ts ≠ []) ∨ ∃ t ∈ ts, sevIndex t = none) →
      ts.foldlM tstep (some h) = .error () := by
  induction ts with
  | nil =>
    intro h hh
    rcases hh with ⟨_, hne⟩ | ⟨t, ht, _⟩
    · exact absurd rfl hne
    · exact absurd ht (List.not_mem_nil _)
  | cons t ts ih =>
    intro h hh
    rw [List.foldlM_cons]
    cases hit : sevIndex t with
    | none =>
      have hstep : tstep (some h) t = .error () := by
        cases hih : sevIndex h <;> simp [tstep, hit, hih]
      rw [hstep]
      rfl
    | some i =>
      cases hih : sevIndex h with
      | none =>
        have hstep : tstep (some h) t = .error () := by
          simp [tstep, hit, hih]
        rw [hstep]
        rfl
      | some j =>
        have hstep : tstep (some h) t = .ok (some (if i < j then t else h)) := by
          simp only [tstep, hit, hih]
          split <;> rfl
        rw [hstep]
        show ts.foldlM tstep (some (if i < j then t else h)) = .error ()
        apply ih
        rcases hh with ⟨hh, _⟩ | ⟨t', ht', hu⟩
        · rw [hih] at hh
          exact absurd hh (by simp)
        · rcases List.mem_cons.mp ht' with rfl | hm
          · rw [hit] at hu
            exact absurd hu (by simp)
          · exact Or.inr ⟨t', hm, hu⟩

theorem tfold_ok_some_recognized (ts : List String) :
    ∀ (h : String) (st' : Option String), ts ≠ [] →
      ts.foldlM tstep (some h) = .ok st' →
      ∃ h', st' = some h' ∧ (sevIndex h').isSome := by
  induction ts with
  | nil =>
    intro h st' hne _
    exact absurd rfl hne
  | cons t ts ih =>
    intro h st' _ hok
    rw [List.foldlM_cons] at hok
    rcases (except_bind_ok _ _ _).mp hok with ⟨st1, h1, h2⟩
    unfold tstep at h1
    cases hit : sevIndex t with
    | none => simp [hit] at h1
    | some i =>
      cases hih : sevIndex h with
      | none => simp [hit, hih] at h1
      | some j =>
        simp only [hit, hih] at h1
        injection h1 with h1
        subst h1
        rw [show (if i < j then some t else some h) = some (if i < j then t else h)
          by split <;> rfl] at h2
        by_cases hts : ts = []
        · subst hts
          have hst : st' = some (if i < j then t else h) := by
            simpa [List.foldlM_nil, Pure.pure, Except.pure] using h2.symm
          subst hst
          refine ⟨if i < j then t else h, rfl, ?_⟩
          by_cases hij : i < j
          · simp [hij, hit]
          · simp [hij, hih]
        · exact ih _ st' hts h2

theorem extract_single_label {vulns : List OSVVulnerability} {t : String}
    (hlab : sevLabels vulns = [t]) (htne : t ≠ "") :
    extract_highest_severity vulns = .ok t := by
  rw [extract_eq_tfold, hlab]
  simp [List.foldlM_cons, List.foldlM_nil, tstep, pyOrLow, htne, Bind.bind,
    Except.bind, Pure.pure, Except.pure]

theorem extract_empty_label {vulns : List OSVVulnerability}
    (hlab : sevLabels vulns = [""]) :
    extract_highest_severity vulns = .ok "LOW" := by
  rw [extract_eq_tfold, hlab]
  simp [List.foldlM_cons, List.foldlM_nil, tstep, pyOrLow, Bind.bind,
    Except.bind, Pure.pure, Except.pure]

theorem vulns_ne_nil_of_sevLabels {vulns : List OSVVulnerability}
    {ts : List String} (hlab : sevLabels vulns = ts) (hne : ts ≠ []) :
    vulns ≠ [] := by
  intro h
  subst h
  simp only [sevLabels, allSevs, List.flatMap_nil, List.map_nil] at hlab
  exact hne hlab.symm

theorem calculate_ttl_of_extract {vulns : List OSVVulnerability} {h : String}
    (hne : vulns ≠ []) (hex : extract_highest_severity vulns = .ok h) :
    calculate_ttl vulns = .ok ((SEVERITY_TTL h).getD TTL_DEFAULT) := by
  unfold calculate_ttl
  rw [if_neg (by simpa [List.isEmpty_iff] using hne)]
  rw [show (do
      let highest ← extract_highest_severity vulns
      return (SEVERITY_TTL highest).getD TTL_DEFAULT : Except Unit Nat) =
    extract_highest_severity vulns >>= fun highest =>
      .ok ((SEVERITY_TTL highest).getD TTL_DEFAULT) from rfl, hex]
  rfl

theorem extract_err_unrecognized (vulns : List OSVVulnerability)
    (hlen : 2 ≤ (sevLabels vulns).length)
    (hex : ∃ t ∈ sevLabels vulns, sevIndex t = none) :
    extract_highest_severity vulns = .error () ∧
    calculate_ttl vulns = .error () := by
  cases hls : sevLabels vulns with
  | nil =>
    rw [hls] at hlen
    simp at hlen
  | cons t0 rest =>
    have hne : vulns ≠ [] := vulns_ne_nil_of_sevLabels hls (by simp)
    have hrne : rest ≠ [] := by
      intro h
      rw [h] at hls
      rw [hls] at hlen
      simp at hlen
    have herr : (sevLabels vulns).foldlM tstep none = .error () := by
      rw [hls, List.foldlM_cons]
      rw [show tstep none t0 = .ok (some t0) from rfl]
      show rest.foldlM tstep (some t0) = .error ()
      apply tfold_err
      rcases hex with ⟨t, hmem, hu⟩
      rw [hls] at hmem
      rcases List.mem_cons.mp hmem with rfl | hm
      · exact Or.inl ⟨hu, hrne⟩
      · exact Or.inr ⟨t, hm, hu⟩
    have hext : extract_highest_severity vulns = .error () := by
      rw [extract_eq_tfold, herr]
      rfl
    refine ⟨hext, ?_⟩
    unfold calculate_ttl
    rw [if_neg (by simpa [List.isEmpty_iff] using hne)]
    rw [show (do
        let highest ← extract_highest_severity vulns
        return (SEVERITY_TTL highest).getD TTL_DEFAULT : Except Unit Nat) =
      extract_highest_severity vulns >>= fun highest =>
        .ok ((SEVERITY_TTL highest).getD TTL_DEFAULT) from rfl, hext]
    rfl

/-- C3: counterexample.  The claim asserts `_calculate_ttl` never raises on
vulnerability lists whose only severity entries carry unrecognized labels;
a list with two unrecognized severity entries makes
`_extract_highest_severity` raise `ValueError` (`SEVERITY_ORDER.index` on a
label not in the list), which `_calculate_ttl` propagates. -/
theorem C3_counterexample :
    calculate_ttl [vulnTwoWeird] = .error () ∧
    vulnTwoWeird.affected = none ∧
    (∀ s ∈ vulnTwoWeird.severity.getD [], sevIndex (pyUpper s.type) = none) := by
  refine ⟨rfl, rfl, ?_⟩
  decide

/-- C3 (amended): when the list carries exactly one severity entry in total
and its uppercased label is unrecognized, the scan never raises, and the
TTL depends on the label: a non-empty unrecognized label is returned as the
highest severity and `_calculate_ttl` yields the 1h fallback; the empty
label is falsy in `highest or "LOW"`, so it collapses to LOW and the TTL is
the 24h no-vulnerability value.  With two or more severity entries of which
any is unrecognized, `_extract_highest_severity` raises `ValueError`
(`SEVERITY_ORDER.index` on a missing label) and `_calculate_ttl` propagates
it. -/
theorem C3_amended_ttl :
    (∀ vulns t, sevLabels vulns = [t] → sevIndex t = none → t ≠ "" →
      calculate_ttl vulns = .ok TTL_DEFAULT ∧
      extract_highest_severity vulns = .ok t) ∧
    (∀ vulns, sevLabels vulns = [""] →
      calculate_ttl vulns = .ok TTL_NONE ∧
      extract_highest_severity vulns = .ok "LOW") ∧
    (∀ vulns, 2 ≤ (sevLabels vulns).length →
      (∃ t ∈ sevLabels vulns, sevIndex t = none) →
      extract_highest_severity vulns = .error () ∧
      calculate_ttl vulns = .error ()) := by
  refine ⟨?_, ?_, fun vulns h1 h2 => extract_err_unrecognized vulns h1 h2⟩
  · intro vulns t hlab hunrec htne
    have hex := extract_single_label hlab htne
    have hne : vulns ≠ [] := vulns_ne_nil_of_sevLabels hlab (by simp)
    have hc := calculate_ttl_of_extract hne hex
    rw [ttl_none_of_unrecognized hunrec] at hc
    exact ⟨hc, hex⟩
  · intro vulns hlab
    have hex := extract_empty_label hlab
    have hne : vulns ≠ [] := vulns_ne_nil_of_sevLabels hlab (by simp)
    exact ⟨calculate_ttl_of_extract hne hex, hex⟩

/-- C3 (amended) witness: the lone non-empty unrecognized label `WEIRD`
gets the 1h fallback; the lone empty label collapses to LOW and 24h; two
unrecognized labels raise. -/
theorem C3_amended_ttl_witness :
    (calculate_ttl [vulnOneWeird] = .ok TTL_DEFAULT ∧
      extract_highest_severity [vulnOneWeird] = .ok "WEIRD") ∧
    (calculate_ttl [vulnEmptyType] = .ok TTL_NONE ∧
      extract_highest_severity [vulnEmptyType] = .ok "LOW") ∧
    (extract_highest_severity [vulnTwoWeird] = .error () ∧
      calculate_ttl [vulnTwoWeird] = .error ()) :=
  ⟨C3_amended_ttl.1 [vulnOneWeird] "WEIRD" rfl rfl (by decide),
    C3_amended_ttl.2.1 [vulnEmptyType] rfl,
    C3_amended_ttl.2.2 [vulnTwoWeird] (by decide) ⟨"WEIRD", by decide, rfl⟩⟩

/-- C6: counterexample.  For a list whose single severity entry carries the
empty-string label, the only scanned label is `""` — unrecognized, so the
claim demands the 1h (3600s) default fallback and a highest severity drawn
from the scanned labels.  But `highest or "LOW"` treats the empty string as
falsy: `_extract_highest_severity` returns `LOW`, which was never scanned,
and `_calculate_ttl` returns 86400, not 3600. -/
theorem C6_counterexample :
    sevLabels [vulnEmptyType] = [""] ∧
    sevIndex "" = none ∧
    extract_highest_severity [vulnEmptyType] = .ok "LOW" ∧
    "LOW" ∉ sevLabels [vulnEmptyType] ∧
    calculate_ttl [vulnEmptyType] = .ok 86400 ∧
    TTL_DEFAULT = 3600 := by
  exact ⟨rfl, rfl, rfl, by decide, rfl, rfl⟩

/-- C6 (amended): the TTL policy.  The empty list gets the no-vulnerability
TTL of 24h; a non-empty list gets the TTL of the extracted highest
severity (CRITICAL 1h, HIGH 4h, MODERATE 12h, LOW 24h, any label outside
the table the 1h fallback); the extracted highest severity is a scanned
label of minimal rank under CRITICAL > HIGH > MODERATE > LOW — except that
a lone empty-string label is falsy in `highest or "LOW"` and collapses to
LOW (hence 24h); LOW is also returned when no vulnerabilities or no
severities are present. -/
theorem C6_ttl_policy :
    calculate_ttl [] = .ok TTL_NONE ∧
    TTL_NONE = 86400 ∧ TTL_DEFAULT = 3600 ∧
    SEVERITY_TTL "CRITICAL" = some 3600 ∧
    SEVERITY_TTL "HIGH" = some 14400 ∧
    SEVERITY_TTL "MODERATE" = some 43200 ∧
    SEVERITY_TTL "LOW" = some 86400 ∧
    (∀ vulns h, vulns ≠ [] → extract_highest_severity vulns = .ok h →
      calculate_ttl vulns = .ok ((SEVERITY_TTL h).getD TTL_DEFAULT)) ∧
    (∀ t, sevIndex t = none → SEVERITY_TTL t = none) ∧
    (∀ vulns, allSevs vulns = [] → extract_highest_severity vulns = .ok "LOW") ∧
    (∀ vulns h, extract_highest_severity vulns = .ok h → sevLabels vulns ≠ [] →
      (h ∈ sevLabels vulns ∧ ∀ t ∈ sevLabels vulns, sevRank h ≤ sevRank t) ∨
      (sevLabels vulns = [""] ∧ h = "LOW")) := by
  refine ⟨rfl, rfl, rfl, rfl, rfl, rfl, rfl,
    fun vulns h hne hex => calculate_ttl_of_extract hne hex,
    fun t ht => ttl_none_of_unrecognized ht, ?_, ?_⟩
  · intro vulns hsev
    rw [extract_eq_tfold]
    rw [show sevLabels vulns = [] by simp [sevLabels, hsev]]
    rfl
  · intro vulns h hex hne
    rcases extract_ok_elim hex with ⟨st, hf, hh⟩
    rcases tfold_ok_none _ _ hf with ⟨hnil, _⟩ | ⟨h', hst, hmem, hall⟩
    · exact absurd hnil hne
    · subst hst
      by_cases hemp : h' = ""
      · subst hemp
        right
        have hh' : h = "LOW" := by
          rw [hh]
          simp [pyOrLow]
        refine ⟨?_, hh'⟩
        cases hls : sevLabels vulns with
        | nil => exact absurd hls hne
        | cons t0 rest =>
          cases hrest : rest with
          | nil =>
            rw [hls, hrest] at hmem
            rw [show t0 = "" from (List.mem_singleton.mp hmem).symm]
          | cons t1 rest' =>
            exfalso
            rw [hls, List.foldlM_cons] at hf
            rw [show tstep none t0 = .ok (some t0) from rfl] at hf
            have hf2 : rest.foldlM tstep (some t0) = .ok (some "") := hf
            rcases tfold_ok_some_recognized rest t0 (some "")
                (by rw [hrest]; simp) hf2 with ⟨h'', heq, hrec⟩
            injection heq with heq
            rw [← heq] at hrec
            exact absurd hrec (by decide)
      · left
        have hh' : h = h' := by
          rw [hh]
          simp [pyOrLow, hemp]
        rw [hh']
        exact ⟨hmem, hall⟩

/-- C6 (amended) witness: a CRITICAL vulnerability (on an affected package)
gets the 1h TTL and CRITICAL is the minimal-rank scanned label; the empty
list gets 24h; a list with no severities extracts LOW; the lone empty
label collapses to LOW with 24h. -/
theorem C6_ttl_policy_witness :
    calculate_ttl [vulnCrit] = .ok 3600 ∧
    calculate_ttl [] = .ok TTL_NONE ∧
    extract_highest_severity [⟨"V9", none, none⟩] = .ok "LOW" ∧
    (("CRITICAL" ∈ sevLabels [vulnCrit] ∧
        ∀ t ∈ sevLabels [vulnCrit], sevRank "CRITICAL" ≤ sevRank t) ∨
      (sevLabels [vulnCrit] = [""] ∧ "CRITICAL" = "LOW")) := by
  refine ⟨?_, C6_ttl_policy.1, ?_, ?_⟩
  · exact C6_ttl_policy.2.2.2.2.2.2.2.1 [vulnCrit] "CRITICAL" (by simp) rfl
  · exact C6_ttl_policy.2.2.2.2.2.2.2.2.2.1 [⟨"V9", none, none⟩] rfl
  · exact C6_ttl_policy.2.2.2.2.2.2.2.2.2.2 [vulnCrit] "CRITICAL" rfl (by decide)

/-- C9: `_extract_highest_severity` is monotonic — appending a
vulnerability that carries a severity at least as severe as the list's
current highest never yields a result of lower severity (higher rank),
whenever both scans complete without raising. -/
theorem C9_monotonic (l : List OSVVulnerability) (v : OSVVulnerability)
    (h0 h1 : String) (s : Severity) (hmem : s ∈ vulnSevs v)
    (hsev : sevRank (pyUpper s.type) ≤ sevRank h0)
    (he0 : extract_highest_severity l = .ok h0)
    (he1 : extract_highest_severity (l ++ [v]) = .ok h1) :
    sevRank h1 ≤ sevRank h0 := by
  rcases extract_ok_elim he0 with ⟨st0, hf0, hh0⟩
  rcases extract_ok_elim he1 with ⟨st1, hf1, hh1⟩
  have hsplit : sevLabels (l ++ [v]) = sevLabels l ++ sevLabels [v] := by
    simp [sevLabels, allSevs]
  rw [hsplit, List.foldlM_append] at hf1
  rcases (except_bind_ok _ _ _).mp hf1 with ⟨stm, hfm, hrest⟩
  rw [hf0] at hfm
  injection hfm with hfm
  subst hfm
  have hlabmem : pyUpper s.type ∈ sevLabels [v] := by
    simp only [sevLabels, allSevs, List.flatMap_cons, List.flatMap_nil,
      List.append_nil]
    exact List.mem_map_of_mem _ hmem
  cases st0 with
  | none =>
    rcases tfold_ok_none _ _ hrest with ⟨hnil, _⟩ | ⟨h', hst, hmem', hall⟩
    · rw [hnil] at hlabmem
      exact absurd hlabmem (List.not_mem_nil _)
    · subst hst
      have hb2 : sevRank h' ≤ sevRank h0 := le_trans (hall _ hlabmem) hsev
      have hne : h' ≠ "" := by
        intro he
        subst he
        rw [hh0] at hb2
        exact absurd hb2 (by decide)
      rw [hh1, show pyOrLow (some h') = h' by simp [pyOrLow, hne]]
      exact hb2
  | some h0' =>
    by_cases hemp : h0' = ""
    · subst hemp
      have herr : (sevLabels [v]).foldlM tstep (some "") = .error () := by
        apply tfold_err
        refine Or.inl ⟨rfl, ?_⟩
        intro hnil
        rw [hnil] at hlabmem
        exact absurd hlabmem (List.not_mem_nil _)
      rw [herr] at hrest
      exact absurd hrest (by simp)
    · rcases tfold_ok_some _ _ _ hrest with ⟨h1', hst, hmem', hle, _⟩
      subst hst
      have hh0' : h0 = h0' := by
        rw [hh0]
        simp [pyOrLow, hemp]
      by_cases hemp1 : h1' = ""
      · subst hemp1
        rcases hmem' with h | h
        · exact absurd h.symm hemp
        · have herr : (sevLabels [v]).foldlM tstep (some h0') = .error () :=
            tfold_err _ h0' (Or.inr ⟨"", h, rfl⟩)
          rw [herr] at hrest
          exact absurd hrest (by simp)
      · have hh1' : h1 = h1' := by
          rw [hh1]
          simp [pyOrLow, hemp1]
        rw [hh0', hh1']
        exact hle

/-- C9 witness: appending a HIGH vulnerability to the empty scan moves the
result from LOW to HIGH, a rank that is not lower in severity. -/
theorem C9_monotonic_witness :
    extract_highest_severity [] = .ok "LOW" ∧
    extract_highest_severity [vulnHigh] = .ok "HIGH" ∧
    sevRank "HIGH" ≤ sevRank "LOW" :=
  ⟨rfl, rfl,
    C9_monotonic [] vulnHigh "LOW" "HIGH" ⟨"HIGH", "8.0"⟩ (by decide) (by decide)
      rfl rfl⟩

end Aegis

namespace Aegis

theorem phase0_cons_ok {req : Requirement} {rest : List Requirement}
    {m0 : String → Option Requirement} {ks : List String}
    {dm : String → Option Requirement}
    (h : phase0 (req :: rest) m0 = .ok (ks, dm)) :
    ∃ k ks', deriveKey req = .ok k ∧
      phase0 rest (fun x => if x = k then some req else m0 x) = .ok (ks', dm) ∧
      ks = k :: ks' := by
  cases hd : deriveKey req with
  | error e => simp [phase0, hd, Bind.bind, Except.bind] at h
  | ok k =>
    cases hp : phase0 rest (fun x => if x = k then some req else m0 x) with
    | error e => simp [phase0, hd, hp, Bind.bind, Except.bind] at h
    | ok p =>
      obtain ⟨ks', dm'⟩ := p
      simp only [phase0, hd, hp, Bind.bind, Except.bind, Pure.pure,
        Except.pure, Except.ok.injEq, Prod.mk.injEq] at h
      exact ⟨k, ks', rfl, by rw [hp, h.2], (h.1).symm⟩

theorem phase0_keys (reqs : List Requirement) :
    ∀ (m0 : String → Option Requirement) ks dm,
      phase0 reqs m0 = .ok (ks, dm) →
      ks.length = reqs.length ∧
      ∀ i (hi : i < reqs.length), ∃ k, ks[i]? = some k ∧ deriveKey reqs[i] = .ok k := by
  induction reqs with
  | nil =>
    intro m0 ks dm h
    simp only [phase0, Pure.pure, Except.pure, Except.ok.injEq, Prod.mk.injEq] at h
    rw [← h.1]
    exact ⟨rfl, fun i hi => absurd hi (by simp)⟩
  | cons req rest ih =>
    intro m0 ks dm h
    rcases phase0_cons_ok h with ⟨k, ks', hd, hp, hks⟩
    subst hks
    rcases ih _ _ _ hp with ⟨hlen, hpt⟩
    refine ⟨by simp [hlen], ?_⟩
    intro i hi
    cases i with
    | zero => exact ⟨k, by simp, hd⟩
    | succ j =>
      rcases hpt j (by simp at hi; omega) with ⟨k', hk', hd'⟩
      exact ⟨k', by simpa using hk', by simpa using hd'⟩

theorem phase0_preserve (reqs : List Requirement) :
    ∀ (m0 : String → Option Requirement) ks dm,
      phase0 reqs m0 = .ok (ks, dm) →
      ∀ k, k ∉ ks → dm k = m0 k := by
  induction reqs with
  | nil =>
    intro m0 ks dm h k _
    simp only [phase0, Pure.pure, Except.pure, Except.ok.injEq, Prod.mk.injEq] at h
    rw [← h.2]
  | cons req rest ih =>
    intro m0 ks dm h k hk
    rcases phase0_cons_ok h with ⟨k1, ks', _, hp, hks⟩
    subst hks
    rw [ih _ _ _ hp k (fun hm => hk (List.mem_cons_of_mem _ hm))]
    rw [if_neg (fun he => hk (by rw [he]; exact List.mem_cons_self _ _))]

theorem phase0_mem (reqs : List Requirement) :
    ∀ (m0 : String → Option Requirement) ks dm,
      phase0 reqs m0 = .ok (ks, dm) →
      ∀ k, k ∈ ks → ∃ req, dm k = some req ∧ req ∈ reqs ∧ deriveKey req = .ok k := by
  induction reqs with
  | nil =>
    intro m0 ks dm h k hk
    simp only [phase0, Pure.pure, Except.pure, Except.ok.injEq, Prod.mk.injEq] at h
    rw [← h.1] at hk
    exact absurd hk (List.not_mem_nil _)
  | cons req rest ih =>
    intro m0 ks dm h k hk
    rcases phase0_cons_ok h with ⟨k1, ks', hd, hp, hks⟩
    subst hks
    by_cases hmem : k ∈ ks'
    · rcases ih _ _ _ hp k hmem with ⟨req', h1, h2, h3⟩
      exact ⟨req', h1, List.mem_cons_of_mem _ h2, h3⟩
    · have hk1 : k = k1 := by
        rcases List.mem_cons.mp hk with h | h
        · exact h
        · exact absurd h hmem
      subst hk1
      rw [phase0_preserve _ _ _ _ hp k hmem]
      exact ⟨req, by simp, List.mem_cons_self _ _, hd⟩

theorem phase0_err (reqs : List Requirement) :
    ∀ (m0 : String → Option Requirement),
      (∃ req ∈ reqs, req.specifier = []) →
      phase0 reqs m0 = .error .stopIteration := by
  induction reqs with
  | nil =>
    intro m0 h
    rcases h with ⟨req, hm, _⟩
    exact absurd hm (List.not_mem_nil _)
  | cons req rest ih =>
    intro m0 h
    by_cases hr : req.specifier = []
    · have hd : deriveKey req = .error .stopIteration := by
        unfold deriveKey
        rw [hr]
        rfl
      simp [phase0, hd, Bind.bind, Except.bind]
    · rcases h with ⟨req', hm, hsp⟩
      have hrest : ∃ r ∈ rest, r.specifier = [] := by
        rcases List.mem_cons.mp hm with h | h
        · exact absurd (h ▸ hsp) hr
        · exact ⟨req', h, hsp⟩
      obtain ⟨sp, hsp2⟩ : ∃ sp, req.specifier.head? = some sp := by
        cases hh : req.specifier with
        | nil => exact absurd hh hr
        | cons a l => exact ⟨a, rfl⟩
      have hd : deriveKey req = .ok (pyLower req.name ++ "@" ++ sp.version) := by
        unfold deriveKey
        rw [hsp2]
      simp [phase0, hd, Bind.bind, Except.bind, Functor.map, Except.map, ih _ hrest]

theorem phase0_ok (reqs : List Requirement) :
    ∀ (m0 : String → Option Requirement),
      (∀ req ∈ reqs, req.specifier ≠ []) →
      ∃ ks dm, phase0 reqs m0 = .ok (ks, dm) := by
  induction reqs with
  | nil => intro m0 _; exact ⟨[], m0, rfl⟩
  | cons req rest ih =>
    intro m0 hs
    obtain ⟨sp, hsp⟩ : ∃ sp, req.specifier.head? = some sp := by
      cases hh : req.specifier with
      | nil => exact absurd hh (hs req (List.mem_cons_self _ _))
      | cons a l => exact ⟨a, rfl⟩
    have hd : deriveKey req = .ok (pyLower req.name ++ "@" ++ sp.version) := by
      unfold deriveKey
      rw [hsp]
    rcases ih (fun x => if x = pyLower req.name ++ "@" ++ sp.version
        then some req else m0 x) (fun r hr => hs r (List.mem_cons_of_mem _ hr)) with
      ⟨ks, dm, hp⟩
    refine ⟨(pyLower req.name ++ "@" ++ sp.version) :: ks, dm, ?_⟩
    simp [phase0, hd, hp, Bind.bind, Except.bind, Pure.pure, Except.pure,
      Functor.map, Except.map]

end Aegis

namespace Aegis

theorem add_of_none {c : Cache} {k : String} (h : c k = none) (e : CacheEntry) :
    add_if_not_exists c k e = (c.set k e, true) := by
  unfold add_if_not_exists
  rw [h]

theorem add_of_some {c : Cache} {k : String} {e0 : CacheEntry}
    (h : c k = some e0) (e : CacheEntry) :
    add_if_not_exists c k e = (c, false) := by
  unfold add_if_not_exists
  rw [h]

theorem WFCache_set_fetching {c : Cache} (h : WFCache c) (k : String) :
    WFCache (c.set k fetchingEntry) := by
  intro k' e' he'
  unfold Cache.set at he'
  by_cases hk : k' = k
  · rw [if_pos hk] at he'
    injection he' with he'
    subst he'
    left
    rfl
  · rw [if_neg hk] at he'
    exact h k' e' he'

theorem mapSet_same {α : Type} (m : String → Option α) (k : String) (v : α) :
    mapSet m k v k = some v := by
  simp [mapSet]

theorem mapSet_other {α : Type} (m : String → Option α) {k k' : String}
    (h : k' ≠ k) (v : α) : mapSet m k v k' = m k' := by
  simp [mapSet, h]

theorem triage1_props (now : Nat) (s : RunState) (k : String) (hwf : WFCache s.cache) :
    WFCache (triage1 now s k).cache ∧ CovD (triage1 now s k) k ∧
      (∀ k', CovD s k' → CovD (triage1 now s k) k') ∧
      (∀ k', k' ∈ (triage1 now s k).to_fetch → k' ∈ s.to_fetch ∨ k' = k) := by
  cases hk : s.cache.get k with
  | none =>
    have hadd := add_of_none (c := s.cache) (k := k) hk fetchingEntry
    simp only [triage1, hk, hadd]
    refine ⟨WFCache_set_fetching hwf k, Or.inr (Or.inl (by simp)), ?_, ?_⟩
    · intro k' hc
      rcases hc with hm | htf | hws
      · exact Or.inl hm
      · exact Or.inr (Or.inl (List.mem_append_left _ htf))
      · exact Or.inr (Or.inr hws)
    · intro k' hk'
      rcases List.mem_append.mp hk' with h | h
      · exact Or.inl h
      · exact Or.inr (List.mem_singleton.mp h)
  | some e =>
    have hdata : e.status = "ready" → ∃ v, e.data = some v := by
      intro hready
      rcases hwf k e hk with hf | ⟨_, hd⟩
      · rw [hready] at hf
        exact absurd hf (by decide)
      · exact Option.isSome_iff_exists.mp hd
    by_cases hready : e.status = "ready"
    · rcases hdata hready with ⟨v, hv⟩
      by_cases hfresh : expiryFresh e.expiry_timestamp now
      · simp only [triage1, hk, if_pos hready, if_pos hfresh]
        refine ⟨hwf, Or.inl ⟨v, by simp [mapSet, hv]⟩, ?_, fun k' h => Or.inl h⟩
        intro k' hc
        by_cases hkk : k' = k
        · subst hkk
          exact Or.inl ⟨v, by simp [mapSet, hv]⟩
        · rcases hc with hm | htf | hws
          · exact Or.inl (by simpa [mapSet, hkk] using hm)
          · exact Or.inr (Or.inl htf)
          · exact Or.inr (Or.inr hws)
      · cases hradd : s.cache (k ++ ":refresh") with
        | none =>
          have hadd := add_of_none (c := s.cache) (k := k ++ ":refresh") hradd fetchingEntry
          simp only [triage1, hk, if_pos hready, if_neg hfresh, hadd, if_true]
          refine ⟨WFCache_set_fetching hwf _, Or.inl ⟨v, by simp [mapSet, hv]⟩, ?_, ?_⟩
          · intro k' hc
            by_cases hkk : k' = k
            · subst hkk
              exact Or.inl ⟨v, by simp [mapSet, hv]⟩
            · rcases hc with hm | htf | hws
              · exact Or.inl (by simpa [mapSet, hkk] using hm)
              · exact Or.inr (Or.inl (List.mem_append_left _ htf))
              · exact Or.inr (Or.inr hws)
          · intro k' hk'
            rcases List.mem_append.mp hk' with h | h
            · exact Or.inl h
            · exact Or.inr (List.mem_singleton.mp h)
        | some e' =>
          have hadd := add_of_some (c := s.cache) (k := k ++ ":refresh") hradd fetchingEntry
          simp only [triage1, hk, if_pos hready, if_neg hfresh, hadd,
            Bool.false_eq_true, if_false]
          refine ⟨hwf, Or.inl ⟨v, by simp [mapSet, hv]⟩, ?_, fun k' h => Or.inl h⟩
          intro k' hc
          by_cases hkk : k' = k
          · subst hkk
            exact Or.inl ⟨v, by simp [mapSet, hv]⟩
          · rcases hc with hm | htf | hws
            · exact Or.inl (by simpa [mapSet, hkk] using hm)
            · exact Or.inr (Or.inl htf)
            · exact Or.inr (Or.inr hws)
    · have hfetch : e.status = "fetching" := by
        rcases hwf k e hk with hf | ⟨hr, _⟩
        · exact hf
        · exact absurd hr hready
      simp only [triage1, hk, if_neg hready, if_pos hfetch]
      refine ⟨hwf, Or.inr (Or.inr (by simp)), ?_, fun k' h => Or.inl h⟩
      intro k' hc
      rcases hc with hm | htf | hws
      · exact Or.inl hm
      · exact Or.inr (Or.inl htf)
      · exact Or.inr (Or.inr (List.mem_append_left _ hws))

theorem triageFold_props (now : Nat) (ks : List String) :
    ∀ s : RunState, WFCache s.cache →
      WFCache (ks.foldl (triage1 now) s).cache ∧
      (∀ k ∈ ks, CovD (ks.foldl (triage1 now) s) k) ∧
      (∀ k', CovD s k' → CovD (ks.foldl (triage1 now) s) k') ∧
      (∀ k', k' ∈ (ks.foldl (triage1 now) s).to_fetch →
        k' ∈ s.to_fetch ∨ k' ∈ ks) := by
  induction ks with
  | nil => exact fun s hwf => ⟨hwf, by simp, fun k' h => h, fun k' h => Or.inl h⟩
  | cons k ks ih =>
    intro s hwf
    rcases triage1_props now s k hwf with ⟨hwf1, hcov1, hmono1, htf1⟩
    rcases ih (triage1 now s k) hwf1 with ⟨hwfF, hcovF, hmonoF, htfF⟩
    rw [List.foldl_cons]
    refine ⟨hwfF, ?_, fun k' hc => hmonoF k' (hmono1 k' hc), ?_⟩
    · intro k0 hk0
      rcases List.mem_cons.mp hk0 with rfl | hm
      · exact hmonoF k0 hcov1
      · exact hcovF k0 hm
    · intro k' hk'
      rcases htfF k' hk' with h | h
      · rcases htf1 k' h with h' | h'
        · exact Or.inl h'
        · exact Or.inr (h' ▸ List.mem_cons_self _ _)
      · exact Or.inr (List.mem_cons_of_mem _ h)

end Aegis

namespace Aegis

theorem buildQueries_ok (dm : String → Option Requirement) (ks : List String)
    (h : ∀ k ∈ ks, ∃ req, dm k = some req ∧ req.specifier ≠ []) :
    ∃ qs, buildQueries dm ks = .ok qs ∧ qs.length = ks.length := by
  induction ks with
  | nil => exact ⟨[], rfl, rfl⟩
  | cons k ks ih =>
    rcases h k (List.mem_cons_self _ _) with ⟨req, hdm, hsp⟩
    obtain ⟨sp, hsp2⟩ : ∃ sp, req.specifier.head? = some sp := by
      cases hh : req.specifier with
      | nil => exact absurd hh hsp
      | cons a l => exact ⟨a, rfl⟩
    rcases ih (fun k' hk' => h k' (List.mem_cons_of_mem _ hk')) with ⟨qs, hqs, hlen⟩
    refine ⟨("pkg:pypi/" ++ req.name ++ "@" ++ sp.version) :: qs, ?_, by simp [hlen]⟩
    simp [buildQueries, hdm, hsp2, hqs, Bind.bind, Except.bind, Pure.pure, Except.pure]

theorem fetchLoop_props (now2 : Nat) (pairs : List (String × QueryVulnerabilities)) :
    ∀ (c : Cache) (m : ResultsMap),
      (∀ p ∈ pairs, ∃ n, calculate_ttl p.2.vulns = .ok n) →
      ∃ c' m', fetchLoop now2 pairs c m = (c', m', none) ∧
        (∀ k ∈ pairs.map Prod.fst, ∃ v, m' k = some (some v)) ∧
        (∀ k, (∃ v, m k = some (some v)) → ∃ v, m' k = some (some v)) := by
  induction pairs with
  | nil => exact fun c m _ => ⟨c, m, rfl, by simp, fun k h => h⟩
  | cons p pairs ih =>
    intro c m h
    obtain ⟨k, res⟩ := p
    rcases h (k, res) (List.mem_cons_self _ _) with ⟨n, httl⟩
    rcases ih ((c.set k ⟨"ready", some res, some (now2 + n)⟩).pop (k ++ ":refresh"))
        (mapSet m k (some res))
        (fun p' hp' => h p' (List.mem_cons_of_mem _ hp')) with
      ⟨c', m', heq, hcov, hmono⟩
    refine ⟨c', m', ?_, ?_, ?_⟩
    · rw [fetchLoop, httl]
      exact heq
    · intro k0 hk0
      rcases (by simpa using hk0 : k0 = k ∨ ∃ x, (k0, x) ∈ pairs) with rfl | ⟨x, hm⟩
      · exact hmono k0 ⟨res, by simp [mapSet]⟩
      · exact hcov k0 (by simpa using List.mem_map_of_mem Prod.fst hm)
    · intro k0 hk0
      by_cases hkk : k0 = k
      · subst hkk
        exact hmono k0 ⟨res, by simp [mapSet]⟩
      · exact hmono k0 (by simpa [mapSet, hkk] using hk0)

theorem waitLoop_props (c : Cache) (waitO : String → Option QueryVulnerabilities)
    (ws : List String) :
    ∀ m : ResultsMap,
      (∀ k ∈ ws, ∃ v, waitLoop c waitO ws m k = some (some v)) ∧
      (∀ k, (∃ v, m k = some (some v)) → ∃ v, waitLoop c waitO ws m k = some (some v)) := by
  induction ws with
  | nil => exact fun m => ⟨by simp, fun k h => h⟩
  | cons w ws ih =>
    intro m
    set v0 : QueryVulnerabilities :=
      match waitData c waitO w with
      | some d => d
      | none => ⟨[]⟩ with hv0
    have hstep : waitLoop c waitO (w :: ws) m = waitLoop c waitO ws (mapSet m w (some v0)) := by
      rw [waitLoop]
    rcases ih (mapSet m w (some v0)) with ⟨hcov, hmono⟩
    constructor
    · intro k hk
      rcases List.mem_cons.mp hk with rfl | hm
      · rw [hstep]
        exact hmono k ⟨v0, by simp [mapSet]⟩
      · rw [hstep]
        exact hcov k hm
    · intro k hk
      rw [hstep]
      by_cases hkk : k = w
      · subst hkk
        exact hmono k ⟨v0, by simp [mapSet]⟩
      · exact hmono k (by simpa [mapSet, hkk] using hk)

theorem assemble_ok (m : ResultsMap) (ks : List String)
    (h : ∀ k ∈ ks, ∃ v, m k = some (some v)) :
    ∃ out, assemble m ks = .ok out ∧ out.length = ks.length ∧
      ∀ i, i < ks.length →
        ∃ k v, ks[i]? = some k ∧ m k = some (some v) ∧ out[i]? = some v := by
  induction ks with
  | nil => exact ⟨[], rfl, rfl, fun i hi => absurd hi (by simp)⟩
  | cons k ks ih =>
    rcases h k (List.mem_cons_self _ _) with ⟨v, hv⟩
    rcases ih (fun k' hk' => h k' (List.mem_cons_of_mem _ hk')) with
      ⟨out, hout, hlen, hpt⟩
    refine ⟨v :: out, ?_, by simp [hlen], ?_⟩
    · simp [assemble, hv, hout, Bind.bind, Except.bind, Pure.pure, Except.pure]
    · intro i hi
      cases i with
      | zero => exact ⟨k, v, by simp, hv, by simp⟩
      | succ j =>
        rcases hpt j (by simp at hi; omega) with ⟨k', v', h1, h2, h3⟩
        exact ⟨k', v', by simpa using h1, h2, by simpa using h3⟩

end Aegis

namespace Aegis

/-- C1: order preservation of `query_osv_batch`.  For any input list
(duplicates included), any well-formed initial cache, and any fetch oracle
honouring the external contract (one result per query, results with
computable TTLs), the call returns a batch response of the same length as
the input, and the entry at position `i` is exactly the recorded Query
Result for the identity key derived from input `i` — whether it came from
cache, the batched fetch, or waiting. -/
theorem C1_order_preserved
    (fetch : List String → Except Unit (List QueryVulnerabilities))
    (waitO : String → Option QueryVulnerabilities)
    (now now2 : Nat) (c0 : Cache) (reqs : List Requirement)
    (hspec : ∀ req ∈ reqs, req.specifier ≠ [])
    (hwf : WFCache c0)
    (hfetch : ∀ qs, ∃ rs, fetch qs = .ok rs ∧ rs.length = qs.length ∧
      ∀ r ∈ rs, ∃ n, calculate_ttl r.vulns = .ok n) :
    ∃ resp, query_osv_batch fetch waitO now now2 c0 reqs = .ok resp ∧
      resp.results.length = reqs.length ∧
      ∀ i (hi : i < reqs.length), ∃ k v, deriveKey reqs[i] = .ok k ∧
        (queryCore fetch waitO now now2 c0 reqs).resultsMap k = some (some v) ∧
        resp.results[i]? = some v := by
  rcases phase0_ok reqs (fun _ => none) hspec with ⟨ks, dm, h0⟩
  rcases phase0_keys reqs _ _ _ h0 with ⟨hklen, hkpt⟩
  rcases triageFold_props now ks ⟨fun _ => none, [], [], c0⟩ hwf with
    ⟨hwf1, hcov1, _, htf1⟩
  by_cases htf : (ks.foldl (triage1 now) ⟨fun _ => none, [], [], c0⟩).to_fetch.isEmpty
  · -- nothing to fetch: phase 3 straight after triage
    rcases waitLoop_props
        (ks.foldl (triage1 now) ⟨fun _ => none, [], [], c0⟩).cache waitO
        (ks.foldl (triage1 now) ⟨fun _ => none, [], [], c0⟩).waiters
        (ks.foldl (triage1 now) ⟨fun _ => none, [], [], c0⟩).resultsMap with
      ⟨hwcov, hwmono⟩
    have hallcov : ∀ k ∈ ks, ∃ v,
        waitLoop (ks.foldl (triage1 now) ⟨fun _ => none, [], [], c0⟩).cache waitO
          (ks.foldl (triage1 now) ⟨fun _ => none, [], [], c0⟩).waiters
          (ks.foldl (triage1 now) ⟨fun _ => none, [], [], c0⟩).resultsMap k =
          some (some v) := by
      intro k hk
      rcases hcov1 k hk with hm | htfm | hws
      · exact hwmono k hm
      · rw [List.isEmpty_iff.mp htf] at htfm
        exact absurd htfm (List.not_mem_nil _)
      · exact hwcov k hws
    rcases assemble_ok _ ks hallcov with ⟨out, hout, holen, hopt⟩
    have hqc : queryCore fetch waitO now now2 c0 reqs =
        ⟨ks, (ks.foldl (triage1 now) ⟨fun _ => none, [], [], c0⟩).to_fetch,
          (ks.foldl (triage1 now) ⟨fun _ => none, [], [], c0⟩).waiters,
          (ks.foldl (triage1 now) ⟨fun _ => none, [], [], c0⟩).cache,
          waitLoop (ks.foldl (triage1 now) ⟨fun _ => none, [], [], c0⟩).cache waitO
            (ks.foldl (triage1 now) ⟨fun _ => none, [], [], c0⟩).waiters
            (ks.foldl (triage1 now) ⟨fun _ => none, [], [], c0⟩).resultsMap, [],
          (assemble (waitLoop
              (ks.foldl (triage1 now) ⟨fun _ => none, [], [], c0⟩).cache waitO
              (ks.foldl (triage1 now) ⟨fun _ => none, [], [], c0⟩).waiters
              (ks.foldl (triage1 now) ⟨fun _ => none, [], [], c0⟩).resultsMap) ks).map
            OSVBatchResponse.mk⟩ := by
      have hp12 : phase12 fetch now now2 c0 reqs =
          ⟨ks, (ks.foldl (triage1 now) ⟨fun _ => none, [], [], c0⟩).to_fetch,
            (ks.foldl (triage1 now) ⟨fun _ => none, [], [], c0⟩).waiters,
            (ks.foldl (triage1 now) ⟨fun _ => none, [], [], c0⟩).cache,
            (ks.foldl (triage1 now) ⟨fun _ => none, [], [], c0⟩).resultsMap, [], none⟩ := by
        simp only [phase12, h0, htf, if_true]
      simp only [queryCore, hp12]
    refine ⟨⟨out⟩, ?_, by simpa [holen] using hklen, ?_⟩
    · show (queryCore fetch waitO now now2 c0 reqs).result = _
      rw [hqc]
      show (assemble _ ks).map OSVBatchResponse.mk = _
      rw [hout]
      rfl
    · intro i hi
      rcases hkpt i hi with ⟨k, hks, hdk⟩
      rcases hopt i (by rw [hklen]; exact hi) with ⟨k', v, hks', hm, ho⟩
      rw [hks] at hks'
      injection hks' with hks'
      subst hks'
      refine ⟨k, v, hdk, ?_, ho⟩
      rw [hqc]
      exact hm
  · -- phase 2 runs: build queries, fetch, store back, then wait
    have htfks : ∀ k ∈ (ks.foldl (triage1 now) ⟨fun _ => none, [], [], c0⟩).to_fetch,
        k ∈ ks := by
      intro k hk
      rcases htf1 k hk with h | h
      · exact absurd h (List.not_mem_nil _)
      · exact h
    have hbqh : ∀ k ∈ (ks.foldl (triage1 now) ⟨fun _ => none, [], [], c0⟩).to_fetch,
        ∃ req, dm k = some req ∧ req.specifier ≠ [] := by
      intro k hk
      rcases phase0_mem reqs _ _ _ h0 k (htfks k hk) with ⟨req, h1, h2, _⟩
      exact ⟨req, h1, hspec req h2⟩
    rcases buildQueries_ok dm _ hbqh with ⟨qs, hbq, hqlen⟩
    rcases hfetch qs with ⟨rs, hrs, hrslen, httl⟩
    have hzipttl : ∀ p ∈ (ks.foldl (triage1 now) ⟨fun _ => none, [], [], c0⟩).to_fetch.zip rs,
        ∃ n, calculate_ttl p.2.vulns = .ok n := by
      intro p hp
      obtain ⟨a, b⟩ := p
      exact httl b (List.of_mem_zip hp).2
    rcases fetchLoop_props now2 _
        (ks.foldl (triage1 now) ⟨fun _ => none, [], [], c0⟩).cache
        (ks.foldl (triage1 now) ⟨fun _ => none, [], [], c0⟩).resultsMap hzipttl with
      ⟨c2, m2, hfl, hflcov, hflmono⟩
    have hmfz : ((ks.foldl (triage1 now) ⟨fun _ => none, [], [], c0⟩).to_fetch.zip rs).map
        Prod.fst = (ks.foldl (triage1 now) ⟨fun _ => none, [], [], c0⟩).to_fetch := by
      apply List.map_fst_zip
      rw [hrslen, hqlen]
    rcases waitLoop_props c2 waitO
        (ks.foldl (triage1 now) ⟨fun _ => none, [], [], c0⟩).waiters m2 with
      ⟨hwcov, hwmono⟩
    have hallcov : ∀ k ∈ ks, ∃ v,
        waitLoop c2 waitO
          (ks.foldl (triage1 now) ⟨fun _ => none, [], [], c0⟩).waiters m2 k =
          some (some v) := by
      intro k hk
      rcases hcov1 k hk with hm | htfm | hws
      · exact hwmono k (hflmono k hm)
      · exact hwmono k (hflcov k (by rwa [hmfz]))
      · exact hwcov k hws
    rcases assemble_ok _ ks hallcov with ⟨out, hout, holen, hopt⟩
    have hqc : queryCore fetch waitO now now2 c0 reqs =
        ⟨ks, (ks.foldl (triage1 now) ⟨fun _ => none, [], [], c0⟩).to_fetch,
          (ks.foldl (triage1 now) ⟨fun _ => none, [], [], c0⟩).waiters, c2,
          waitLoop c2 waitO
            (ks.foldl (triage1 now) ⟨fun _ => none, [], [], c0⟩).waiters m2, [qs],
          (assemble (waitLoop c2 waitO
              (ks.foldl (triage1 now) ⟨fun _ => none, [], [], c0⟩).waiters m2) ks).map
            OSVBatchResponse.mk⟩ := by
      have hp12 : phase12 fetch now now2 c0 reqs =
          ⟨ks, (ks.foldl (triage1 now) ⟨fun _ => none, [], [], c0⟩).to_fetch,
            (ks.foldl (triage1 now) ⟨fun _ => none, [], [], c0⟩).waiters, c2, m2,
            [qs], none⟩ := by
        simp only [phase12, h0, htf, Bool.false_eq_true, if_false, hbq, hrs, hfl]
      simp only [queryCore, hp12]
    refine ⟨⟨out⟩, ?_, by simpa [holen] using hklen, ?_⟩
    · show (queryCore fetch waitO now now2 c0 reqs).result = _
      rw [hqc]
      show (assemble _ ks).map OSVBatchResponse.mk = _
      rw [hout]
      rfl
    · intro i hi
      rcases hkpt i hi with ⟨k, hks, hdk⟩
      rcases hopt i (by rw [hklen]; exact hi) with ⟨k', v, hks', hm, ho⟩
      rw [hks] at hks'
      injection hks' with hks'
      subst hks'
      refine ⟨k, v, hdk, ?_, ho⟩
      rw [hqc]
      exact hm

end Aegis

namespace Aegis

/-- C1 witness: a concrete duplicate-key input against an empty cache and a
fetch oracle answering one result per query. -/
theorem C1_order_preserved_witness :
    (∀ req ∈ [reqFoo, reqFoo], req.specifier ≠ []) ∧
    ∃ resp, query_osv_batch okFetch noWait 0 0 emptyCache [reqFoo, reqFoo] = .ok resp ∧
      resp.results.length = ([reqFoo, reqFoo] : List Requirement).length ∧
      ∀ i (hi : i < ([reqFoo, reqFoo] : List Requirement).length), ∃ k v,
        deriveKey ([reqFoo, reqFoo] : List Requirement)[i] = .ok k ∧
        (queryCore okFetch noWait 0 0 emptyCache [reqFoo, reqFoo]).resultsMap k =
          some (some v) ∧
        resp.results[i]? = some v := by
  refine ⟨by decide, ?_⟩
  refine C1_order_preserved okFetch noWait 0 0 emptyCache [reqFoo, reqFoo]
    (by decide) (fun k e he => absurd he (by simp [emptyCache])) ?_
  intro qs
  refine ⟨qs.map (fun _ => qvFresh), rfl, by simp, ?_⟩
  intro r hr
  rcases List.mem_map.mp hr with ⟨q, _, rfl⟩
  exact ⟨86400, rfl⟩

/-- C10: interface partiality of `query_osv_batch`.  Any input containing a
requirement with an empty specifier set makes the whole call raise
`StopIteration` during key derivation, before any cache mutation and before
any external call; when every requirement has at least one specifier, key
derivation succeeds, using the first specifier's version in the key; and
the empty input returns an empty batch result with no fetch and no cache
mutation. -/
theorem C10_partiality :
    (∀ fetch waitO (now now2 : Nat) (c0 : Cache) (reqs : List Requirement),
      (∃ req ∈ reqs, req.specifier = []) →
      (queryCore fetch waitO now now2 c0 reqs).result = .error .stopIteration ∧
      (queryCore fetch waitO now now2 c0 reqs).cache = c0 ∧
      (queryCore fetch waitO now now2 c0 reqs).calls = []) ∧
    (∀ reqs : List Requirement, (∀ req ∈ reqs, req.specifier ≠ []) →
      ∃ ks dm, phase0 reqs (fun _ => none) = .ok (ks, dm) ∧
        ∀ i (hi : i < reqs.length), ∃ k, ks[i]? = some k ∧ deriveKey reqs[i] = .ok k) ∧
    (∀ (req : Requirement) (sp : Specifier), req.specifier.head? = some sp →
      deriveKey req = .ok (pyLower req.name ++ "@" ++ sp.version)) ∧
    (∀ fetch waitO (now now2 : Nat) (c0 : Cache),
      (queryCore fetch waitO now now2 c0 []).result = .ok ⟨[]⟩ ∧
      (queryCore fetch waitO now now2 c0 []).calls = [] ∧
      (queryCore fetch waitO now now2 c0 []).cache = c0) := by
  refine ⟨?_, ?_, ?_, ?_⟩
  · intro fetch waitO now now2 c0 reqs hempty
    have herr := phase0_err reqs (fun _ => none) hempty
    have hqc : queryCore fetch waitO now now2 c0 reqs =
        ⟨[], [], [], c0, fun _ => none, [], .error .stopIteration⟩ := by
      have hp12 : phase12 fetch now now2 c0 reqs =
          ⟨[], [], [], c0, fun _ => none, [], some .stopIteration⟩ := by
        simp only [phase12, herr]
      simp only [queryCore, hp12]
    rw [hqc]
    exact ⟨rfl, rfl, rfl⟩
  · intro reqs hs
    rcases phase0_ok reqs (fun _ => none) hs with ⟨ks, dm, h0⟩
    rcases phase0_keys reqs _ _ _ h0 with ⟨_, hpt⟩
    exact ⟨ks, dm, h0, hpt⟩
  · intro req sp hsp
    unfold deriveKey
    rw [hsp]
  · intro fetch waitO now now2 c0
    have hqc : queryCore fetch waitO now now2 c0 [] =
        ⟨[], [], [], c0, fun _ => none, [], .ok ⟨[]⟩⟩ := by
      have hp12 : phase12 fetch now now2 c0 [] =
          ⟨[], [], [], c0, fun _ => none, [], none⟩ := by
        simp only [phase12, phase0]
        rfl
      simp only [queryCore, hp12]
      rfl
    rw [hqc]
    exact ⟨rfl, rfl, rfl⟩

/-- C10 witness: the concrete instances — a requirement with an empty
specifier set raises before touching anything; `Foo==1.0.0` derives the key
`foo@1.0.0` from its first specifier; the empty input succeeds with an
empty result and no external call. -/
theorem C10_partiality_witness :
    (queryCore okFetch noWait 0 0 emptyCache [⟨"bar", []⟩]).result =
      .error .stopIteration ∧
    (queryCore okFetch noWait 0 0 emptyCache [⟨"bar", []⟩]).calls = [] ∧
    deriveKey reqFoo = .ok (pyLower "Foo" ++ "@" ++ "1.0.0") ∧
    (queryCore okFetch noWait 0 0 emptyCache []).result = .ok ⟨[]⟩ ∧
    (queryCore okFetch noWait 0 0 emptyCache []).calls = [] := by
  refine ⟨?_, ?_, ?_, ?_, ?_⟩
  · exact (C10_partiality.1 okFetch noWait 0 0 emptyCache [⟨"bar", []⟩]
      ⟨⟨"bar", []⟩, by simp, rfl⟩).1
  · exact (C10_partiality.1 okFetch noWait 0 0 emptyCache [⟨"bar", []⟩]
      ⟨⟨"bar", []⟩, by simp, rfl⟩).2.2
  · exact C10_partiality.2.2.1 reqFoo ⟨"1.0.0"⟩ rfl
  · exact (C10_partiality.2.2.2 okFetch noWait 0 0 emptyCache).1
  · exact (C10_partiality.2.2.2 okFetch noWait 0 0 emptyCache).2.1

end Aegis

namespace Aegis

theorem triage1_cache_write (now : Nat) (s : RunState) (k' k : String) :
    (triage1 now s k').cache k = s.cache k ∨
      ((triage1 now s k').cache k = some fetchingEntry ∧
        (k = k' ∨ k = k' ++ ":refresh")) := by
  cases hk' : s.cache.get k' with
  | none =>
    have hadd := add_of_none (c := s.cache) (k := k') hk' fetchingEntry
    simp only [triage1, hk', hadd, if_true]
    by_cases hkk : k = k'
    · exact Or.inr ⟨by simp [Cache.set, hkk], Or.inl hkk⟩
    · exact Or.inl (by simp [Cache.set, hkk])
  | some e =>
    by_cases hready : e.status = "ready"
    · by_cases hfresh : expiryFresh e.expiry_timestamp now
      · simp only [triage1, hk', if_pos hready, if_pos hfresh]
        exact Or.inl trivial
      · cases hradd : s.cache (k' ++ ":refresh") with
        | none =>
          have hadd := add_of_none (c := s.cache) (k := k' ++ ":refresh") hradd
            fetchingEntry
          simp only [triage1, hk', if_pos hready, if_neg hfresh, hadd, if_true]
          by_cases hkk : k = k' ++ ":refresh"
          · exact Or.inr ⟨by simp [Cache.set, hkk], Or.inr hkk⟩
          · exact Or.inl (by simp [Cache.set, hkk])
        | some e' =>
          have hadd := add_of_some (c := s.cache) (k := k' ++ ":refresh") hradd
            fetchingEntry
          simp only [triage1, hk', if_pos hready, if_neg hfresh, hadd,
            Bool.false_eq_true, if_false]
          exact Or.inl trivial
    · by_cases hfetch : e.status = "fetching"
      · simp only [triage1, hk', if_neg hready, if_pos hfetch]
        exact Or.inl trivial
      · simp only [triage1, hk', if_neg hready, if_neg hfetch]
        exact Or.inl trivial

theorem triage1_claims_self (now : Nat) (s : RunState) (k : String)
    (h : s.cache k = none) :
    (triage1 now s k).cache k = some fetchingEntry ∧
      k ∈ (triage1 now s k).to_fetch := by
  have hget : s.cache.get k = none := h
  have hadd := add_of_none (c := s.cache) (k := k) h fetchingEntry
  simp only [triage1, hget, hadd, if_true]
  exact ⟨by simp [Cache.set], by simp⟩

theorem triage1_tf_shape (now : Nat) (s : RunState) (k' : String) :
    (triage1 now s k').to_fetch = s.to_fetch ∨
      (triage1 now s k').to_fetch = s.to_fetch ++ [k'] := by
  cases hk' : s.cache.get k' with
  | none =>
    have hadd := add_of_none (c := s.cache) (k := k') hk' fetchingEntry
    simp only [triage1, hk', hadd, if_true]
    exact Or.inr trivial
  | some e =>
    by_cases hready : e.status = "ready"
    · by_cases hfresh : expiryFresh e.expiry_timestamp now
      · simp only [triage1, hk', if_pos hready, if_pos hfresh]
        exact Or.inl trivial
      · cases hradd : s.cache (k' ++ ":refresh") with
        | none =>
          have hadd := add_of_none (c := s.cache) (k := k' ++ ":refresh") hradd
            fetchingEntry
          simp only [triage1, hk', if_pos hready, if_neg hfresh, hadd, if_true]
          exact Or.inr trivial
        | some e' =>
          have hadd := add_of_some (c := s.cache) (k := k' ++ ":refresh") hradd
            fetchingEntry
          simp only [triage1, hk', if_pos hready, if_neg hfresh, hadd,
            Bool.false_eq_true, if_false]
          exact Or.inl trivial
    · by_cases hfetch : e.status = "fetching"
      · simp only [triage1, hk', if_neg hready, if_pos hfetch]
        exact Or.inl trivial
      · simp only [triage1, hk', if_neg hready, if_neg hfetch]
        exact Or.inl trivial

theorem triageFold_tf_mono (now : Nat) (ks : List String) :
    ∀ (s : RunState) (k : String), k ∈ s.to_fetch →
      k ∈ (ks.foldl (triage1 now) s).to_fetch := by
  induction ks with
  | nil => exact fun s k h => h
  | cons k' ks ih =>
    intro s k h
    rw [List.foldl_cons]
    refine ih _ k ?_
    rcases triage1_tf_shape now s k' with hs | hs
    · rw [hs]; exact h
    · rw [hs]; exact List.mem_append_left _ h

theorem triageFold_tf_sub (now : Nat) (ks : List String) :
    ∀ (s : RunState) (k : String), k ∈ (ks.foldl (triage1 now) s).to_fetch →
      k ∈ s.to_fetch ∨ k ∈ ks := by
  induction ks with
  | nil => exact fun s k h => Or.inl h
  | cons k' ks ih =>
    intro s k h
    rw [List.foldl_cons] at h
    rcases ih _ k h with hm | hm
    · rcases triage1_tf_shape now s k' with hs | hs
      · rw [hs] at hm
        exact Or.inl hm
      · rw [hs] at hm
        rcases List.mem_append.mp hm with h1 | h1
        · exact Or.inl h1
        · exact Or.inr (by rw [List.mem_singleton.mp h1]; exact List.mem_cons_self _ _)
    · exact Or.inr (List.mem_cons_of_mem _ hm)

theorem triageFold_fe_keep (now : Nat) (ks : List String) :
    ∀ (s : RunState) (k : String), s.cache k = some fetchingEntry →
      (ks.foldl (triage1 now) s).cache k = some fetchingEntry := by
  induction ks with
  | nil => exact fun s k h => h
  | cons k' ks ih =>
    intro s k h
    rw [List.foldl_cons]
    refine ih _ k ?_
    rcases triage1_cache_write now s k' k with hw | ⟨hw, _⟩
    · rw [hw]; exact h
    · exact hw

theorem triageFold_new (now : Nat) (ks : List String) :
    ∀ (s : RunState) (k : String), s.cache k = none →
      (ks.foldl (triage1 now) s).cache k = none ∨
      (ks.foldl (triage1 now) s).cache k = some fetchingEntry := by
  induction ks with
  | nil => exact fun s k h => Or.inl h
  | cons k' ks ih =>
    intro s k h
    rw [List.foldl_cons]
    rcases triage1_cache_write now s k' k with hw | ⟨hw, _⟩
    · exact ih _ k (hw.trans h)
    · exact Or.inr (triageFold_fe_keep now ks _ k hw)

theorem triageFold_claim (now : Nat) (ks : List String) (k : String)
    (hdisj : ∀ k' ∈ ks, k ≠ k' ++ ":refresh") :
    ∀ s : RunState, s.cache k = none → k ∈ ks →
      (ks.foldl (triage1 now) s).cache k = some fetchingEntry ∧
      k ∈ (ks.foldl (triage1 now) s).to_fetch := by
  induction ks with
  | nil => exact fun s _ hmem => absurd hmem (List.not_mem_nil _)
  | cons k' ks ih =>
    intro s hnone hmem
    rw [List.foldl_cons]
    by_cases hkk : k = k'
    · subst hkk
      rcases triage1_claims_self now s k hnone with ⟨hc, htf⟩
      exact ⟨triageFold_fe_keep now ks _ k hc, triageFold_tf_mono now ks _ k htf⟩
    · have hmem' : k ∈ ks := by
        rcases List.mem_cons.mp hmem with h | h
        · exact absurd h hkk
        · exact h
      have hnone' : (triage1 now s k').cache k = none := by
        rcases triage1_cache_write now s k' k with hw | ⟨_, hk | hk⟩
        · exact hw.trans hnone
        · exact absurd hk hkk
        · exact absurd hk (hdisj k' (List.mem_cons_self _ _))
      exact ih (fun k0 h0 => hdisj k0 (List.mem_cons_of_mem _ h0)) _ hnone' hmem'

theorem phase0_key_mem (reqs : List Requirement) :
    ∀ (m0 : String → Option Requirement) ks dm,
      phase0 reqs m0 = .ok (ks, dm) →
      ∀ req ∈ reqs, ∀ k, deriveKey req = .ok k → k ∈ ks := by
  induction reqs with
  | nil =>
    intro m0 ks dm h req hreq
    exact absurd hreq (List.not_mem_nil _)
  | cons req0 rest ih =>
    intro m0 ks dm h req hreq k hk
    rcases phase0_cons_ok h with ⟨k1, ks', hd, hp, hks⟩
    subst hks
    rcases List.mem_cons.mp hreq with rfl | hm
    · rw [hd] at hk
      injection hk with hk
      rw [← hk]
      exact List.mem_cons_self _ _
    · exact List.mem_cons_of_mem _ (ih _ _ _ hp req hm k hk)

end Aegis

namespace Aegis

/-- C5: when the external batched fetch fails (transport error or
non-success status, `fetch ≡ error`), and at least one requirement's key
was cache-absent (so a fetch is actually issued), the whole orchestrator
call fails as one `httpx` error: the result is the propagated exception
(no partial batch result, no synthesized data), the external call was
issued exactly once, the claimed absent key is left in the cache as a
`fetching` entry, and every key this call created is a `fetching` entry
(claims are not reverted).  The `hdisj` hypothesis rules out the degenerate
key shape `<other key>:refresh`. -/
theorem C5_fetch_failure
    (fetch : List String → Except Unit (List QueryVulnerabilities))
    (waitO : String → Option QueryVulnerabilities)
    (now now2 : Nat) (c0 : Cache) (reqs : List Requirement) (req0 : Requirement)
    (k0 : String)
    (hspec : ∀ req ∈ reqs, req.specifier ≠ [])
    (hfail : ∀ qs, fetch qs = .error ())
    (hmem : req0 ∈ reqs) (hk0 : deriveKey req0 = .ok k0)
    (habs : c0 k0 = none)
    (hdisj : ∀ req ∈ reqs, ∀ k', deriveKey req = .ok k' → k0 ≠ k' ++ ":refresh") :
    (queryCore fetch waitO now now2 c0 reqs).result = .error .httpError ∧
    (queryCore fetch waitO now now2 c0 reqs).calls.length = 1 ∧
    (queryCore fetch waitO now now2 c0 reqs).cache k0 = some fetchingEntry ∧
    (∀ k, c0 k = none →
      (queryCore fetch waitO now now2 c0 reqs).cache k = none ∨
      (queryCore fetch waitO now now2 c0 reqs).cache k = some fetchingEntry) := by
  rcases phase0_ok reqs (fun _ => none) hspec with ⟨ks, dm, h0⟩
  have hk0ks : k0 ∈ ks := phase0_key_mem reqs _ _ _ h0 req0 hmem k0 hk0
  have hdisj' : ∀ k' ∈ ks, k0 ≠ k' ++ ":refresh" := by
    intro k' hk'
    rcases phase0_mem reqs _ _ _ h0 k' hk' with ⟨req, _, hreq, hd⟩
    exact hdisj req hreq k' hd
  rcases triageFold_claim now ks k0 hdisj' ⟨fun _ => none, [], [], c0⟩ habs hk0ks with
    ⟨hfe, htfmem⟩
  have htfne : (ks.foldl (triage1 now) ⟨fun _ => none, [], [], c0⟩).to_fetch.isEmpty
      = false :=
    List.isEmpty_eq_false.mpr (List.ne_nil_of_mem htfmem)
  have hbqh : ∀ k ∈ (ks.foldl (triage1 now) ⟨fun _ => none, [], [], c0⟩).to_fetch,
      ∃ req, dm k = some req ∧ req.specifier ≠ [] := by
    intro k hk
    rcases triageFold_tf_sub now ks ⟨fun _ => none, [], [], c0⟩ k hk with h | h
    · exact absurd h (List.not_mem_nil _)
    · rcases phase0_mem reqs _ _ _ h0 k h with ⟨req, h1, h2, _⟩
      exact ⟨req, h1, hspec req h2⟩
  rcases buildQueries_ok dm _ hbqh with ⟨qs, hbq, _⟩
  have hqc : queryCore fetch waitO now now2 c0 reqs =
      ⟨ks, (ks.foldl (triage1 now) ⟨fun _ => none, [], [], c0⟩).to_fetch,
        (ks.foldl (triage1 now) ⟨fun _ => none, [], [], c0⟩).waiters,
        (ks.foldl (triage1 now) ⟨fun _ => none, [], [], c0⟩).cache,
        (ks.foldl (triage1 now) ⟨fun _ => none, [], [], c0⟩).resultsMap,
        [qs], .error .httpError⟩ := by
    have hp12 : phase12 fetch now now2 c0 reqs =
        ⟨ks, (ks.foldl (triage1 now) ⟨fun _ => none, [], [], c0⟩).to_fetch,
          (ks.foldl (triage1 now) ⟨fun _ => none, [], [], c0⟩).waiters,
          (ks.foldl (triage1 now) ⟨fun _ => none, [], [], c0⟩).cache,
          (ks.foldl (triage1 now) ⟨fun _ => none, [], [], c0⟩).resultsMap,
          [qs], some .httpError⟩ := by
      simp only [phase12, h0, htfne, Bool.false_eq_true, if_false, hbq, hfail qs]
    simp only [queryCore, hp12]
  rw [hqc]
  refine ⟨rfl, rfl, hfe, ?_⟩
  intro k hk
  exact triageFold_new now ks ⟨fun _ => none, [], [], c0⟩ k hk

/-- C5 witness: `Foo==1.0.0` against an empty cache with an always-failing
fetch oracle — the call errors, one POST was attempted, and the claimed key
is stuck as `fetching`. -/
theorem C5_fetch_failure_witness :
    (queryCore badFetch noWait 0 0 emptyCache [reqFoo]).result = .error .httpError ∧
    (queryCore badFetch noWait 0 0 emptyCache [reqFoo]).calls.length = 1 ∧
    (queryCore badFetch noWait 0 0 emptyCache [reqFoo]).cache "foo@1.0.0" =
      some fetchingEntry ∧
    (∀ k, emptyCache k = none →
      (queryCore badFetch noWait 0 0 emptyCache [reqFoo]).cache k = none ∨
      (queryCore badFetch noWait 0 0 emptyCache [reqFoo]).cache k =
        some fetchingEntry) := by
  refine C5_fetch_failure badFetch noWait 0 0 emptyCache [reqFoo] reqFoo "foo@1.0.0"
    (by decide) (fun _ => rfl) (List.mem_singleton.mpr rfl) rfl rfl ?_
  intro req hreq k' hk'
  rw [List.mem_singleton.mp hreq] at hk'
  have hk'' : k' = "foo@1.0.0" := by
    injection hk' with h
    exact h.symm
  rw [hk'']
  decide

end Aegis

namespace Aegis

theorem waitLoop_untouched (c : Cache) (waitO : String → Option QueryVulnerabilities)
    (ws : List String) :
    ∀ (m : ResultsMap) (k : String), k ∉ ws → waitLoop c waitO ws m k = m k := by
  induction ws with
  | nil => exact fun m k _ => rfl
  | cons w0 ws ih =>
    intro m k hk
    rw [waitLoop]
    rw [ih _ k (fun h => hk (List.mem_cons_of_mem _ h))]
    exact mapSet_other _ (fun h => hk (by rw [h]; exact List.mem_cons_self _ _)) _

theorem waitLoop_val (c : Cache) (waitO : String → Option QueryVulnerabilities)
    (ws : List String) :
    ∀ (m : ResultsMap) (k : String), k ∈ ws →
      waitLoop c waitO ws m k =
        some (some (match waitData c waitO k with | some d => d | none => ⟨[]⟩)) := by
  induction ws with
  | nil => exact fun m k hk => absurd hk (List.not_mem_nil _)
  | cons w0 ws ih =>
    intro m k hk
    rw [waitLoop]
    by_cases hmem : k ∈ ws
    · exact ih _ k hmem
    · have hk0 : k = w0 := by
        rcases List.mem_cons.mp hk with h | h
        · exact h
        · exact absurd h hmem
      subst hk0
      rw [waitLoop_untouched c waitO ws _ k hmem]
      exact mapSet_same _ _ _

theorem assemble_ok_len_pt (m : ResultsMap) (ks : List String) :
    ∀ out, assemble m ks = .ok out →
      out.length = ks.length ∧
      ∀ (i : Nat) (k : String), ks[i]? = some k →
        ∃ v, m k = some (some v) ∧ out[i]? = some v := by
  induction ks with
  | nil =>
    intro out h
    simp only [assemble] at h
    injection h with h
    subst h
    exact ⟨rfl, fun i k hk => absurd hk (by simp)⟩
  | cons k0 ks ih =>
    intro out h
    rw [assemble] at h
    cases hm : m k0 with
    | none => rw [hm] at h; exact absurd h (by simp)
    | some v? =>
      cases v? with
      | none => rw [hm] at h; exact absurd h (by simp)
      | some v =>
        rw [hm] at h
        rcases (except_bind_ok _ _ _).mp h with ⟨out', hout', hcons⟩
        have hout : out = v :: out' := by
          simp only [Pure.pure, Except.pure] at hcons
          injection hcons with hcons
          exact hcons.symm
        subst hout
        rcases ih out' hout' with ⟨hlen, hpt⟩
        refine ⟨by simp [hlen], ?_⟩
        intro i k hk
        cases i with
        | zero =>
          simp only [List.getElem?_cons_zero] at hk
          injection hk with hk
          subst hk
          exact ⟨v, hm, by simp⟩
        | succ j =>
          rcases hpt j k (by simpa using hk) with ⟨v', h1, h2⟩
          exact ⟨v', h1, by simpa using h2⟩

theorem assemble_ok_mem (m : ResultsMap) (ks : List String) :
    ∀ out, assemble m ks = .ok out → ∀ k ∈ ks, ∃ v, m k = some (some v) := by
  induction ks with
  | nil => exact fun out _ k hk => absurd hk (List.not_mem_nil _)
  | cons k0 ks ih =>
    intro out h k hk
    rw [assemble] at h
    cases hm : m k0 with
    | none => rw [hm] at h; exact absurd h (by simp)
    | some v? =>
      cases v? with
      | none => rw [hm] at h; exact absurd h (by simp)
      | some v =>
        rw [hm] at h
        rcases (except_bind_ok _ _ _).mp h with ⟨out', hout', _⟩
        rcases List.mem_cons.mp hk with rfl | hmem
        · exact ⟨v, hm⟩
        · exact ih out' hout' k hmem

end Aegis

namespace Aegis

/-- C8: fail-open on wait timeout.  If a run of the orchestrator with wait
oracle `w2` succeeds, then the run that differs only in that waiter key
`k`'s entry never becomes ready before the timeout (`w1 k = none`) still
succeeds — no exception: every position of `k` in the batch carries the
empty Query Result, and every position of any other identity carries
exactly the value the `w2` run produced. -/
theorem C8_wait_timeout_failopen
    (fetch : List String → Except Unit (List QueryVulnerabilities))
    (w1 w2 : String → Option QueryVulnerabilities)
    (now now2 : Nat) (c0 : Cache) (reqs : List Requirement) (k : String)
    (resp2 : OSVBatchResponse)
    (hok2 : (queryCore fetch w2 now now2 c0 reqs).result = .ok resp2)
    (hwait : k ∈ (queryCore fetch w1 now now2 c0 reqs).waiters)
    (hnr : ∀ e, (queryCore fetch w1 now now2 c0 reqs).cache k = some e →
      e.status ≠ "ready")
    (ht1 : w1 k = none)
    (hagree : ∀ k', k' ≠ k → w1 k' = w2 k') :
    ∃ resp1, (queryCore fetch w1 now now2 c0 reqs).result = .ok resp1 ∧
      resp1.results.length = resp2.results.length ∧
      (∀ i : Nat, (queryCore fetch w1 now now2 c0 reqs).depKeys[i]? = some k →
        resp1.results[i]? = some ⟨[]⟩) ∧
      (∀ (i : Nat) (k' : String),
        (queryCore fetch w1 now now2 c0 reqs).depKeys[i]? = some k' → k' ≠ k →
        resp1.results[i]? = resp2.results[i]?) := by
  rcases hp : phase12 fetch now now2 c0 reqs with ⟨ks, tf, ws, c, m, calls, err⟩
  cases err with
  | some e =>
    have herr : (queryCore fetch w2 now now2 c0 reqs).result = .error e := by
      simp only [queryCore, hp]
    rw [herr] at hok2
    exact absurd hok2 (by simp)
  | none =>
    have hqc1 : queryCore fetch w1 now now2 c0 reqs =
        ⟨ks, tf, ws, c, waitLoop c w1 ws m, calls,
          (assemble (waitLoop c w1 ws m) ks).map OSVBatchResponse.mk⟩ := by
      simp only [queryCore, hp]
    have hqc2 : queryCore fetch w2 now now2 c0 reqs =
        ⟨ks, tf, ws, c, waitLoop c w2 ws m, calls,
          (assemble (waitLoop c w2 ws m) ks).map OSVBatchResponse.mk⟩ := by
      simp only [queryCore, hp]
    rw [hqc2] at hok2
    rw [hqc1] at hwait hnr
    cases ha2 : assemble (waitLoop c w2 ws m) ks with
    | error e =>
      rw [show ((⟨ks, tf, ws, c, waitLoop c w2 ws m, calls,
          (assemble (waitLoop c w2 ws m) ks).map OSVBatchResponse.mk⟩ :
            QueryRun)).result =
          (assemble (waitLoop c w2 ws m) ks).map OSVBatchResponse.mk from rfl,
        ha2] at hok2
      exact absurd hok2 (by simp [Except.map])
    | ok out2 =>
      rw [show ((⟨ks, tf, ws, c, waitLoop c w2 ws m, calls,
          (assemble (waitLoop c w2 ws m) ks).map OSVBatchResponse.mk⟩ :
            QueryRun)).result =
          (assemble (waitLoop c w2 ws m) ks).map OSVBatchResponse.mk from rfl,
        ha2] at hok2
      have hresp2 : resp2 = ⟨out2⟩ := by
        simp only [Except.map] at hok2
        injection hok2 with h
        exact h.symm
      subst hresp2
      have hwait' : k ∈ ws := hwait
      have hnr' : ∀ e, c k = some e → e.status ≠ "ready" := hnr
      have hval1 : waitLoop c w1 ws m k = some (some (⟨[]⟩ : QueryVulnerabilities)) := by
        rw [waitLoop_val c w1 ws m k hwait']
        have hwd : waitData c w1 k = none := by
          unfold waitData
          cases hc : c.get k with
          | none => exact ht1
          | some e =>
            dsimp only
            rw [if_neg (hnr' e hc)]
            exact ht1
        rw [hwd]
      have hagreeML : ∀ k', k' ≠ k →
          waitLoop c w1 ws m k' = waitLoop c w2 ws m k' := by
        intro k' hk'
        by_cases hmem : k' ∈ ws
        · rw [waitLoop_val c w1 ws m k' hmem, waitLoop_val c w2 ws m k' hmem]
          have hwd : waitData c w1 k' = waitData c w2 k' := by
            unfold waitData
            cases c.get k' with
            | none => exact hagree k' hk'
            | some e =>
              dsimp only
              by_cases he : e.status = "ready"
              · rw [if_pos he, if_pos he]
              · rw [if_neg he, if_neg he]
                exact hagree k' hk'
          rw [hwd]
        · rw [waitLoop_untouched c w1 ws m k' hmem,
            waitLoop_untouched c w2 ws m k' hmem]
      have hcov1 : ∀ k' ∈ ks, ∃ v, waitLoop c w1 ws m k' = some (some v) := by
        intro k' hk'
        by_cases hkk : k' = k
        · subst hkk
          exact ⟨⟨[]⟩, hval1⟩
        · rw [hagreeML k' hkk]
          exact assemble_ok_mem _ ks out2 ha2 k' hk'
      rcases assemble_ok (waitLoop c w1 ws m) ks hcov1 with ⟨out1, ha1, _, _⟩
      rcases assemble_ok_len_pt _ ks out1 ha1 with ⟨hlen1, hpt1⟩
      rcases assemble_ok_len_pt _ ks out2 ha2 with ⟨hlen2, hpt2⟩
      refine ⟨⟨out1⟩, ?_, ?_, ?_, ?_⟩
      · rw [hqc1]
        show (assemble (waitLoop c w1 ws m) ks).map OSVBatchResponse.mk = _
        rw [ha1]
        rfl
      · show out1.length = out2.length
        rw [hlen1, hlen2]
      · intro i hi
        rw [hqc1] at hi
        rcases hpt1 i k hi with ⟨v, hv, ho⟩
        rw [hval1] at hv
        injection hv with hv
        injection hv with hv
        show out1[i]? = _
        rw [ho, ← hv]
      · intro i k' hi hk'
        rw [hqc1] at hi
        rcases hpt1 i k' hi with ⟨v1, hv1, ho1⟩
        rcases hpt2 i k' hi with ⟨v2, hv2, ho2⟩
        rw [hagreeML k' hk', hv2] at hv1
        injection hv1 with hv1
        injection hv1 with hv1
        show out1[i]? = out2[i]?
        rw [ho1, ho2, hv1]

/-- C8 witness: one waiter on an in-flight key; with `w2` the entry becomes
ready with `qvFresh`, with `w1` it times out — the timing-out run returns
the empty result at that position instead of raising. -/
theorem C8_wait_timeout_failopen_witness :
    ∃ resp1, (queryCore okFetch noWait 0 0 inflightCache [reqFoo]).result =
        .ok resp1 ∧
      resp1.results.length = (⟨[qvFresh]⟩ : OSVBatchResponse).results.length ∧
      (∀ i : Nat, (queryCore okFetch noWait 0 0 inflightCache [reqFoo]).depKeys[i]? =
          some "foo@1.0.0" → resp1.results[i]? = some ⟨[]⟩) ∧
      (∀ (i : Nat) (k' : String),
        (queryCore okFetch noWait 0 0 inflightCache [reqFoo]).depKeys[i]? = some k' →
        k' ≠ "foo@1.0.0" →
        resp1.results[i]? = (⟨[qvFresh]⟩ : OSVBatchResponse).results[i]?) := by
  refine C8_wait_timeout_failopen okFetch noWait oneWait 0 0 inflightCache [reqFoo]
    "foo@1.0.0" ⟨[qvFresh]⟩ rfl (by decide) ?_ rfl ?_
  · intro e he
    have h0 : (queryCore okFetch noWait 0 0 inflightCache [reqFoo]).cache
        "foo@1.0.0" = some fetchingEntry := by decide
    rw [h0] at he
    injection he with he
    rw [← he]
    decide
  · intro k' hk'
    simp [noWait, oneWait, hk']

end Aegis

namespace Aegis

theorem ne_append_refresh (k : String) : k ≠ k ++ ":refresh" := by
  intro h
  have h2 : k.length = k.length + (":refresh" : String).length := by
    rw [← String.length_append, ← h]
  have h3 : (":refresh" : String).length = 8 := rfl
  omega

theorem stale_refresh_run
    (fetch : List String → Except Unit (List QueryVulnerabilities))
    (waitO : String → Option QueryVulnerabilities)
    (now now2 : Nat) (c0 : Cache) (req : Requirement) (sp : Specifier)
    (d res : QueryVulnerabilities) (exp : Option Nat) (n : Nat)
    (hsp : req.specifier.head? = some sp)
    (hentry : c0 (pyLower req.name ++ "@" ++ sp.version) =
      some ⟨"ready", some d, exp⟩)
    (hstale : expiryFresh exp now = false)
    (hguard : c0 (pyLower req.name ++ "@" ++ sp.version ++ ":refresh") = none)
    (hfetch : fetch ["pkg:pypi/" ++ req.name ++ "@" ++ sp.version] = .ok [res])
    (httl : calculate_ttl res.vulns = .ok n) :
    query_osv_batch fetch waitO now now2 c0 [req] = .ok ⟨[res]⟩ ∧
    (queryCore fetch waitO now now2 c0 [req]).to_fetch =
      [pyLower req.name ++ "@" ++ sp.version] ∧
    (queryCore fetch waitO now now2 c0 [req]).calls =
      [["pkg:pypi/" ++ req.name ++ "@" ++ sp.version]] ∧
    (queryCore fetch waitO now now2 c0 [req]).cache
      (pyLower req.name ++ "@" ++ sp.version) =
      some ⟨"ready", some res, some (now2 + n)⟩ := by
  have hdk : deriveKey req = .ok (pyLower req.name ++ "@" ++ sp.version) := by
    unfold deriveKey
    rw [hsp]
  have hp0 : phase0 [req] (fun _ => none) =
      .ok ([pyLower req.name ++ "@" ++ sp.version],
        fun x => if x = pyLower req.name ++ "@" ++ sp.version
          then some req else none) := by
    simp [phase0, hdk, Bind.bind, Except.bind, Functor.map, Except.map,
      Pure.pure, Except.pure]
  have hget : (⟨fun _ => none, [], [], c0⟩ : RunState).cache.get
      (pyLower req.name ++ "@" ++ sp.version) = some ⟨"ready", some d, exp⟩ :=
    hentry
  have hadd := add_of_none (c := c0)
    (k := pyLower req.name ++ "@" ++ sp.version ++ ":refresh") hguard fetchingEntry
  have hs1 : List.foldl (triage1 now) ⟨fun _ => none, [], [], c0⟩
      [pyLower req.name ++ "@" ++ sp.version] =
      ⟨mapSet (fun _ => none) (pyLower req.name ++ "@" ++ sp.version) (some d),
        [pyLower req.name ++ "@" ++ sp.version], [],
        c0.set (pyLower req.name ++ "@" ++ sp.version ++ ":refresh")
          fetchingEntry⟩ := by
    rw [List.foldl_cons, List.foldl_nil]
    simp only [triage1, hget, hstale, hadd, if_true, Bool.false_eq_true, if_false]
    simp
  have hbq : buildQueries
      (fun x => if x = pyLower req.name ++ "@" ++ sp.version then some req else none)
      [pyLower req.name ++ "@" ++ sp.version] =
      .ok ["pkg:pypi/" ++ req.name ++ "@" ++ sp.version] := by
    simp [buildQueries, hsp, Bind.bind, Except.bind, Pure.pure, Except.pure]
  have hfl : fetchLoop now2
      ([pyLower req.name ++ "@" ++ sp.version].zip [res])
      (c0.set (pyLower req.name ++ "@" ++ sp.version ++ ":refresh") fetchingEntry)
      (mapSet (fun _ => none) (pyLower req.name ++ "@" ++ sp.version) (some d)) =
      (((c0.set (pyLower req.name ++ "@" ++ sp.version ++ ":refresh")
            fetchingEntry).set (pyLower req.name ++ "@" ++ sp.version)
          ⟨"ready", some res, some (now2 + n)⟩).pop
          (pyLower req.name ++ "@" ++ sp.version ++ ":refresh"),
        mapSet (mapSet (fun _ => none) (pyLower req.name ++ "@" ++ sp.version)
          (some d)) (pyLower req.name ++ "@" ++ sp.version) (some res), none) := by
    rw [List.zip_cons_cons, List.zip_nil_right]
    simp only [fetchLoop, httl]
  have hp12 : phase12 fetch now now2 c0 [req] =
      ⟨[pyLower req.name ++ "@" ++ sp.version],
        [pyLower req.name ++ "@" ++ sp.version], [],
        ((c0.set (pyLower req.name ++ "@" ++ sp.version ++ ":refresh")
            fetchingEntry).set (pyLower req.name ++ "@" ++ sp.version)
          ⟨"ready", some res, some (now2 + n)⟩).pop
          (pyLower req.name ++ "@" ++ sp.version ++ ":refresh"),
        mapSet (mapSet (fun _ => none) (pyLower req.name ++ "@" ++ sp.version)
          (some d)) (pyLower req.name ++ "@" ++ sp.version) (some res),
        [["pkg:pypi/" ++ req.name ++ "@" ++ sp.version]], none⟩ := by
    simp only [phase12, hp0, hs1, List.isEmpty_cons, Bool.false_eq_true, if_false,
      hbq, hfetch, hfl]
  have hasm : assemble
      (mapSet (mapSet (fun _ => none) (pyLower req.name ++ "@" ++ sp.version)
        (some d)) (pyLower req.name ++ "@" ++ sp.version) (some res))
      [pyLower req.name ++ "@" ++ sp.version] = .ok [res] := by
    simp [assemble, mapSet, Bind.bind, Except.bind, Pure.pure, Except.pure]
  have hqc : queryCore fetch waitO now now2 c0 [req] =
      ⟨[pyLower req.name ++ "@" ++ sp.version],
        [pyLower req.name ++ "@" ++ sp.version], [],
        ((c0.set (pyLower req.name ++ "@" ++ sp.version ++ ":refresh")
            fetchingEntry).set (pyLower req.name ++ "@" ++ sp.version)
          ⟨"ready", some res, some (now2 + n)⟩).pop
          (pyLower req.name ++ "@" ++ sp.version ++ ":refresh"),
        mapSet (mapSet (fun _ => none) (pyLower req.name ++ "@" ++ sp.version)
          (some d)) (pyLower req.name ++ "@" ++ sp.version) (some res),
        [["pkg:pypi/" ++ req.name ++ "@" ++ sp.version]], .ok ⟨[res]⟩⟩ := by
    simp only [queryCore, hp12]
    rw [show waitLoop (((c0.set (pyLower req.name ++ "@" ++ sp.version ++ ":refresh")
        fetchingEntry).set (pyLower req.name ++ "@" ++ sp.version)
        ⟨"ready", some res, some (now2 + n)⟩).pop
        (pyLower req.name ++ "@" ++ sp.version ++ ":refresh")) waitO []
        (mapSet (mapSet (fun _ => none) (pyLower req.name ++ "@" ++ sp.version)
          (some d)) (pyLower req.name ++ "@" ++ sp.version) (some res)) =
        mapSet (mapSet (fun _ => none) (pyLower req.name ++ "@" ++ sp.version)
          (some d)) (pyLower req.name ++ "@" ++ sp.version) (some res) from rfl]
    rw [hasm]
    rfl
  rw [query_osv_batch, hqc]
  refine ⟨rfl, rfl, rfl, ?_⟩
  show (((c0.set _ fetchingEntry).set _ _).pop _) _ = _
  rw [Cache.pop, if_neg (ne_append_refresh _), Cache.set]
  rw [if_pos rfl]

end Aegis

namespace Aegis

theorem stale_serve_run
    (fetch : List String → Except Unit (List QueryVulnerabilities))
    (waitO : String → Option QueryVulnerabilities)
    (now now2 : Nat) (c0 : Cache) (req : Requirement) (sp : Specifier)
    (d : QueryVulnerabilities) (exp : Option Nat) (g : CacheEntry)
    (hsp : req.specifier.head? = some sp)
    (hentry : c0 (pyLower req.name ++ "@" ++ sp.version) =
      some ⟨"ready", some d, exp⟩)
    (hstale : expiryFresh exp now = false)
    (hguard : c0 (pyLower req.name ++ "@" ++ sp.version ++ ":refresh") = some g) :
    query_osv_batch fetch waitO now now2 c0 [req] = .ok ⟨[d]⟩ ∧
    (queryCore fetch waitO now now2 c0 [req]).to_fetch = [] ∧
    (queryCore fetch waitO now now2 c0 [req]).calls = [] := by
  have hdk : deriveKey req = .ok (pyLower req.name ++ "@" ++ sp.version) := by
    unfold deriveKey
    rw [hsp]
  have hp0 : phase0 [req] (fun _ => none) =
      .ok ([pyLower req.name ++ "@" ++ sp.version],
        fun x => if x = pyLower req.name ++ "@" ++ sp.version
          then some req else none) := by
    simp [phase0, hdk, Bind.bind, Except.bind, Functor.map, Except.map,
      Pure.pure, Except.pure]
  have hget : (⟨fun _ => none, [], [], c0⟩ : RunState).cache.get
      (pyLower req.name ++ "@" ++ sp.version) = some ⟨"ready", some d, exp⟩ :=
    hentry
  have hadd := add_of_some (c := c0)
    (k := pyLower req.name ++ "@" ++ sp.version ++ ":refresh") hguard fetchingEntry
  have hs1 : List.foldl (triage1 now) ⟨fun _ => none, [], [], c0⟩
      [pyLower req.name ++ "@" ++ sp.version] =
      ⟨mapSet (fun _ => none) (pyLower req.name ++ "@" ++ sp.version) (some d),
        [], [], c0⟩ := by
    rw [List.foldl_cons, List.foldl_nil]
    simp only [triage1, hget, hstale, hadd, Bool.false_eq_true, if_false]
    simp
  have hasm : assemble
      (mapSet (fun _ => none) (pyLower req.name ++ "@" ++ sp.version) (some d))
      [pyLower req.name ++ "@" ++ sp.version] = .ok [d] := by
    simp [assemble, mapSet, Bind.bind, Except.bind, Pure.pure, Except.pure]
  have hp12 : phase12 fetch now now2 c0 [req] =
      ⟨[pyLower req.name ++ "@" ++ sp.version], [], [], c0,
        mapSet (fun _ => none) (pyLower req.name ++ "@" ++ sp.version) (some d),
        [], none⟩ := by
    simp only [phase12, hp0, hs1, List.isEmpty_nil, if_true]
  have hqc : queryCore fetch waitO now now2 c0 [req] =
      ⟨[pyLower req.name ++ "@" ++ sp.version], [], [], c0,
        mapSet (fun _ => none) (pyLower req.name ++ "@" ++ sp.version) (some d),
        [], .ok ⟨[d]⟩⟩ := by
    simp only [queryCore, hp12]
    rw [show waitLoop c0 waitO []
        (mapSet (fun _ => none) (pyLower req.name ++ "@" ++ sp.version) (some d)) =
        mapSet (fun _ => none) (pyLower req.name ++ "@" ++ sp.version) (some d)
        from rfl]
    rw [hasm]
    rfl
  rw [query_osv_batch, hqc]
  exact ⟨rfl, rfl, rfl⟩

end Aegis

namespace Aegis

theorem strAppend_right_cancel {a b s : String} (h : a ++ s = b ++ s) : a = b := by
  have hd : a.data ++ s.data = b.data ++ s.data := by
    simpa [String.data_append] using congrArg String.data h
  have hlen : a.data.length = b.data.length := by
    have := congrArg List.length hd
    simp only [List.length_append] at this
    omega
  have hab : a.data = b.data := (List.append_inj hd hlen).1
  cases a
  cases b
  exact congrArg String.mk hab

theorem fetchLoop_preserve (now2 : Nat) (pairs : List (String × QueryVulnerabilities)) :
    ∀ (c : Cache) (m : ResultsMap) c' m' e,
      fetchLoop now2 pairs c m = (c', m', e) →
      ∀ k, k ∉ pairs.map Prod.fst → (∀ p ∈ pairs, k ≠ p.1 ++ ":refresh") →
      c' k = c k ∧ m' k = m k := by
  induction pairs with
  | nil =>
    intro c m c' m' e h k _ _
    simp only [fetchLoop, Prod.mk.injEq] at h
    obtain ⟨rfl, rfl, rfl⟩ := h
    exact ⟨rfl, rfl⟩
  | cons p pairs ih =>
    intro c m c' m' e h k hk hr
    obtain ⟨k0, res⟩ := p
    have hkk : k ≠ k0 := by
      intro he
      exact hk (by rw [he]; simp)
    cases httl : calculate_ttl res.vulns with
    | error u =>
      rw [fetchLoop, httl] at h
      simp only [Prod.mk.injEq] at h
      obtain ⟨rfl, rfl, rfl⟩ := h
      exact ⟨rfl, rfl⟩
    | ok n =>
      rw [fetchLoop, httl] at h
      rcases ih _ _ _ _ _ h k
          (fun hm => hk (by simpa using Or.inr (by simpa using hm)))
          (fun p hp => hr p (List.mem_cons_of_mem _ hp)) with ⟨h1, h2⟩
      constructor
      · rw [h1]
        show ((c.set k0 _).pop (k0 ++ ":refresh")) k = c k
        rw [Cache.pop, if_neg (hr (k0, res) (List.mem_cons_self _ _))]
        rw [Cache.set, if_neg hkk]
      · rw [h2]
        simp [mapSet, hkk]

theorem fetchLoop_key (now2 : Nat) (pairs : List (String × QueryVulnerabilities)) :
    ∀ (c : Cache) (m : ResultsMap) c' m',
      fetchLoop now2 pairs c m = (c', m', none) →
      ∀ k, k ∈ pairs.map Prod.fst → (∀ p ∈ pairs, k ≠ p.1 ++ ":refresh") →
      ∃ v n, (k, v) ∈ pairs ∧ calculate_ttl v.vulns = .ok n ∧
        c' k = some ⟨"ready", some v, some (now2 + n)⟩ ∧
        m' k = some (some v) := by
  induction pairs with
  | nil =>
    intro c m c' m' _ k hk _
    exact absurd hk (by simp)
  | cons p pairs ih =>
    intro c m c' m' h k hk hr
    obtain ⟨k0, res⟩ := p
    cases httl : calculate_ttl res.vulns with
    | error u =>
      rw [fetchLoop, httl] at h
      simp only [Prod.mk.injEq] at h
      exact absurd h.2.2 (by simp)
    | ok n =>
      rw [fetchLoop, httl] at h
      by_cases hmem : k ∈ pairs.map Prod.fst
      · rcases ih _ _ _ _ h k hmem (fun p hp => hr p (List.mem_cons_of_mem _ hp))
          with ⟨v, n', hin, ht, hc, hm⟩
        exact ⟨v, n', List.mem_cons_of_mem _ hin, ht, hc, hm⟩
      · have hkk : k = k0 := by
          rcases (by simpa using hk : k = k0 ∨ k ∈ pairs.map Prod.fst) with h' | h'
          · exact h'
          · exact absurd h' hmem
        subst hkk
        rcases fetchLoop_preserve now2 pairs _ _ _ _ _ h k hmem
            (fun p hp => hr p (List.mem_cons_of_mem _ hp)) with ⟨hc, hm⟩
        refine ⟨res, n, List.mem_cons_self _ _, httl, ?_, ?_⟩
        · rw [hc]
          show ((c.set k _).pop (k ++ ":refresh")) k = _
          rw [Cache.pop, if_neg (ne_append_refresh k), Cache.set, if_pos rfl]
        · rw [hm]
          simp [mapSet]

theorem wait_preserve_ready (c : Cache) (waitO : String → Option QueryVulnerabilities)
    (ws : List String) (k : String) (v : QueryVulnerabilities) (texp : Option Nat)
    (hc : c k = some ⟨"ready", some v, texp⟩) :
    ∀ m : ResultsMap, m k = some (some v) →
      waitLoop c waitO ws m k = some (some v) := by
  induction ws with
  | nil => exact fun m hm => hm
  | cons w ws ih =>
    intro m hm
    rw [waitLoop]
    apply ih
    by_cases hkw : k = w
    · subst hkw
      have hwd : waitData c waitO k = some v := by
        unfold waitData
        rw [show c.get k = some ⟨"ready", some v, texp⟩ from hc]
        rfl
      simp [mapSet, hwd]
    · simp [mapSet, hkw, hm]

theorem triage1_cache_keep (now : Nat) (s : RunState) (k' k : String)
    (hsome : s.cache k ≠ none) (href : k ≠ k' ++ ":refresh") :
    (triage1 now s k').cache k = s.cache k := by
  cases hk' : s.cache.get k' with
  | none =>
    have hkk : k ≠ k' := by
      intro he
      exact hsome (by rw [he]; exact hk')
    have hadd := add_of_none (c := s.cache) (k := k') hk' fetchingEntry
    simp only [triage1, hk', hadd, if_true]
    simp [Cache.set, hkk]
  | some e =>
    by_cases hready : e.status = "ready"
    · by_cases hfresh : expiryFresh e.expiry_timestamp now
      · simp only [triage1, hk', if_pos hready, if_pos hfresh]
      · cases hradd : s.cache (k' ++ ":refresh") with
        | none =>
          have hadd := add_of_none (c := s.cache) (k := k' ++ ":refresh") hradd
            fetchingEntry
          simp only [triage1, hk', if_pos hready, if_neg hfresh, hadd, if_true]
          simp [Cache.set, href]
        | some e' =>
          have hadd := add_of_some (c := s.cache) (k := k' ++ ":refresh") hradd
            fetchingEntry
          simp only [triage1, hk', if_pos hready, if_neg hfresh, hadd,
            Bool.false_eq_true, if_false]
    · by_cases hfetch : e.status = "fetching"
      · simp only [triage1, hk', if_neg hready, if_pos hfetch]
      · simp only [triage1, hk', if_neg hready, if_neg hfetch]

theorem triage1_m_keep (now : Nat) (s : RunState) (k' k : String) (hkk : k ≠ k') :
    (triage1 now s k').resultsMap k = s.resultsMap k := by
  cases hk' : s.cache.get k' with
  | none =>
    rcases hadd2 : add_if_not_exists s.cache k' fetchingEntry with ⟨c', b⟩
    cases b with
    | false =>
      simp only [triage1, hk', hadd2, Bool.false_eq_true, if_false]
    | true =>
      simp only [triage1, hk', hadd2, if_true]
  | some e =>
    by_cases hready : e.status = "ready"
    · by_cases hfresh : expiryFresh e.expiry_timestamp now
      · simp only [triage1, hk', if_pos hready, if_pos hfresh]
        simp [mapSet, hkk]
      · rcases hadd2 : add_if_not_exists s.cache (k' ++ ":refresh") fetchingEntry
          with ⟨c', b⟩
        cases b with
        | false =>
          simp only [triage1, hk', if_pos hready, if_neg hfresh, hadd2,
            Bool.false_eq_true, if_false]
          simp [mapSet, hkk]
        | true =>
          simp only [triage1, hk', if_pos hready, if_neg hfresh, hadd2, if_true]
          simp [mapSet, hkk]
    · by_cases hfetch : e.status = "fetching"
      · simp only [triage1, hk', if_neg hready, if_pos hfetch]
      · simp only [triage1, hk', if_neg hready, if_neg hfetch]

theorem triage1_guard_keep (now : Nat) (s : RunState) (k' k : String)
    (hne1 : k ++ ":refresh" ≠ k') (hne2 : k ≠ k')
    (hguard : s.cache (k ++ ":refresh") = none) :
    (triage1 now s k').cache (k ++ ":refresh") = none := by
  rcases triage1_cache_write now s k' (k ++ ":refresh") with hw | ⟨_, hk2 | hk2⟩
  · rw [hw]
    exact hguard
  · exact absurd hk2 hne1
  · exact absurd (strAppend_right_cancel hk2) hne2

theorem triage1_isSome_keep (now : Nat) (s : RunState) (k' k : String)
    (h : (s.cache k).isSome = true) : ((triage1 now s k').cache k).isSome = true := by
  rcases triage1_cache_write now s k' k with hw | ⟨hw, _⟩
  · rw [hw]
    exact h
  · rw [hw]
    rfl

theorem triage1_stale_won (now : Nat) (s : RunState) (k : String)
    (d : QueryVulnerabilities) (exp : Option Nat)
    (hentry : s.cache k = some ⟨"ready", some d, exp⟩)
    (hstale : expiryFresh exp now = false)
    (hguard : s.cache (k ++ ":refresh") = none) :
    k ∈ (triage1 now s k).to_fetch := by
  have hget : s.cache.get k = some ⟨"ready", some d, exp⟩ := hentry
  have hadd := add_of_none (c := s.cache) (k := k ++ ":refresh") hguard fetchingEntry
  simp only [triage1, hget, hstale, hadd, if_true, Bool.false_eq_true, if_false]
  simp

theorem triage1_stale_lost (now : Nat) (s : RunState) (k : String)
    (d : QueryVulnerabilities) (exp : Option Nat) (g : CacheEntry)
    (hentry : s.cache k = some ⟨"ready", some d, exp⟩)
    (hstale : expiryFresh exp now = false)
    (hguard : s.cache (k ++ ":refresh") = some g) :
    (triage1 now s k).to_fetch = s.to_fetch ∧
    (triage1 now s k).resultsMap k = some (some d) ∧
    (triage1 now s k).cache = s.cache := by
  have hget : s.cache.get k = some ⟨"ready", some d, exp⟩ := hentry
  have hadd := add_of_some (c := s.cache) (k := k ++ ":refresh") hguard fetchingEntry
  simp only [triage1, hget, hstale, hadd, Bool.false_eq_true, if_false]
  refine ⟨rfl, by simp [mapSet], rfl⟩

theorem triageFold_stale_won (now : Nat) (ks : List String) (k : String)
    (d : QueryVulnerabilities) (exp : Option Nat) :
    ∀ s : RunState,
      (∀ k' ∈ ks, k ≠ k' ++ ":refresh") →
      (∀ k' ∈ ks, k ++ ":refresh" ≠ k') →
      s.cache k = some ⟨"ready", some d, exp⟩ →
      expiryFresh exp now = false →
      s.cache (k ++ ":refresh") = none → k ∈ ks →
      k ∈ (ks.foldl (triage1 now) s).to_fetch := by
  induction ks with
  | nil =>
    intro s _ _ _ _ _ hmem
    exact absurd hmem (List.not_mem_nil _)
  | cons k' ks ih =>
    intro s hd1 hd2 hentry hstale hguard hmem
    rw [List.foldl_cons]
    by_cases hkk : k = k'
    · subst hkk
      exact triageFold_tf_mono now ks _ k
        (triage1_stale_won now s k d exp hentry hstale hguard)
    · have hmem' : k ∈ ks := by
        rcases List.mem_cons.mp hmem with h | h
        · exact absurd h hkk
        · exact h
      have h1 : (triage1 now s k').cache k = s.cache k :=
        triage1_cache_keep now s k' k (by rw [hentry]; simp)
          (hd1 k' (List.mem_cons_self _ _))
      have h2 : (triage1 now s k').cache (k ++ ":refresh") = none :=
        triage1_guard_keep now s k' k (hd2 k' (List.mem_cons_self _ _)) hkk hguard
      exact ih _ (fun x hx => hd1 x (List.mem_cons_of_mem _ hx))
        (fun x hx => hd2 x (List.mem_cons_of_mem _ hx))
        (h1.trans hentry) hstale h2 hmem'

theorem triageFold_stale_lost (now : Nat) (ks : List String) (k : String)
    (d : QueryVulnerabilities) (exp : Option Nat) :
    ∀ s : RunState,
      (∀ k' ∈ ks, k ≠ k' ++ ":refresh") →
      s.cache k = some ⟨"ready", some d, exp⟩ →
      expiryFresh exp now = false →
      (s.cache (k ++ ":refresh")).isSome = true →
      k ∉ s.to_fetch →
      (ks.foldl (triage1 now) s).cache k = some ⟨"ready", some d, exp⟩ ∧
      k ∉ (ks.foldl (triage1 now) s).to_fetch ∧
      (k ∈ ks → (ks.foldl (triage1 now) s).resultsMap k = some (some d)) ∧
      ((ks.foldl (triage1 now) s).resultsMap k = s.resultsMap k ∨
        (ks.foldl (triage1 now) s).resultsMap k = some (some d)) := by
  induction ks with
  | nil =>
    intro s _ hentry _ _ htf
    exact ⟨hentry, htf, fun h => absurd h (List.not_mem_nil _), Or.inl rfl⟩
  | cons k' ks ih =>
    intro s hd1 hentry hstale hguard htf
    rw [List.foldl_cons]
    by_cases hkk : k = k'
    · subst hkk
      obtain ⟨g, hg⟩ := Option.isSome_iff_exists.mp hguard
      rcases triage1_stale_lost now s k d exp g hentry hstale hg with ⟨h1, h2, h3⟩
      have hrec := ih (triage1 now s k)
        (fun x hx => hd1 x (List.mem_cons_of_mem _ hx))
        (by rw [h3]; exact hentry) hstale (by rw [h3]; exact hguard)
        (by rw [h1]; exact htf)
      refine ⟨hrec.1, hrec.2.1, fun _ => ?_, ?_⟩
      · rcases hrec.2.2.2 with hm | hm
        · rw [hm, h2]
        · exact hm
      · rcases hrec.2.2.2 with hm | hm
        · exact Or.inr (by rw [hm, h2])
        · exact Or.inr hm
    · have h1 : (triage1 now s k').cache k = s.cache k :=
        triage1_cache_keep now s k' k (by rw [hentry]; simp)
          (hd1 k' (List.mem_cons_self _ _))
      have h2 : (triage1 now s k').resultsMap k = s.resultsMap k :=
        triage1_m_keep now s k' k hkk
      have h3 : ((triage1 now s k').cache (k ++ ":refresh")).isSome = true :=
        triage1_isSome_keep now s k' _ hguard
      have h4 : k ∉ (triage1 now s k').to_fetch := by
        intro hmem
        rcases triage1_tf_shape now s k' with hs | hs
        · rw [hs] at hmem
          exact htf hmem
        · rw [hs] at hmem
          rcases List.mem_append.mp hmem with h | h
          · exact htf h
          · exact hkk (List.mem_singleton.mp h)
      have hrec := ih (triage1 now s k')
        (fun x hx => hd1 x (List.mem_cons_of_mem _ hx))
        (h1.trans hentry) hstale h3 h4
      refine ⟨hrec.1, hrec.2.1, fun hm => ?_, ?_⟩
      · rcases List.mem_cons.mp hm with h | h
        · exact absurd h hkk
        · exact hrec.2.2.1 h
      · rcases hrec.2.2.2 with hm | hm
        · exact Or.inl (by rw [hm, h2])
        · exact Or.inr hm

theorem queryCore_run_ok
    (fetch : List String → Except Unit (List QueryVulnerabilities))
    (waitO : String → Option QueryVulnerabilities)
    (now now2 : Nat) (c0 : Cache) (reqs : List Requirement)
    (ks : List String) (dm : String → Option Requirement)
    (hwf : WFCache c0)
    (hfetch : ∀ qs, ∃ rs, fetch qs = .ok rs ∧ rs.length = qs.length ∧
      ∀ r ∈ rs, ∃ n, calculate_ttl r.vulns = .ok n)
    (hspec : ∀ req ∈ reqs, req.specifier ≠ [])
    (h0 : phase0 reqs (fun _ => none) = .ok (ks, dm)) :
    ∃ m1 tf ws c1 c2 m2 calls out,
      ks.foldl (triage1 now) ⟨fun _ => none, [], [], c0⟩ = ⟨m1, tf, ws, c1⟩ ∧
      queryCore fetch waitO now now2 c0 reqs =
        ⟨ks, tf, ws, c2, waitLoop c2 waitO ws m2, calls, .ok ⟨out⟩⟩ ∧
      (∀ i, i < ks.length → ∃ k v, ks[i]? = some k ∧
        waitLoop c2 waitO ws m2 k = some (some v) ∧ out[i]? = some v) ∧
      (tf = [] → c2 = c1 ∧ m2 = m1 ∧ calls = []) ∧
      (tf ≠ [] → ∃ qs rs, calls = [qs] ∧ fetch qs = .ok rs ∧
        rs.length = tf.length ∧
        fetchLoop now2 (tf.zip rs) c1 m1 = (c2, m2, none)) := by
  rcases hfold : ks.foldl (triage1 now) ⟨fun _ => none, [], [], c0⟩ with ⟨m1, tf, ws, c1⟩
  rcases triageFold_props now ks ⟨fun _ => none, [], [], c0⟩ hwf with
    ⟨_, hcov1, _, htf1⟩
  rw [hfold] at hcov1 htf1
  by_cases htf : tf = []
  · subst htf
    have hp12 : phase12 fetch now now2 c0 reqs = ⟨ks, [], ws, c1, m1, [], none⟩ := by
      simp [phase12, h0, hfold]
    rcases waitLoop_props c1 waitO ws m1 with ⟨hwcov, hwmono⟩
    have hallcov : ∀ k ∈ ks, ∃ v, waitLoop c1 waitO ws m1 k = some (some v) := by
      intro k hk
      rcases hcov1 k hk with hm | htfm | hws
      · exact hwmono k hm
      · exact absurd htfm (List.not_mem_nil _)
      · exact hwcov k hws
    rcases assemble_ok _ ks hallcov with ⟨out, hout, _, hopt⟩
    refine ⟨m1, [], ws, c1, c1, m1, [], out, rfl, ?_, hopt, fun _ => ⟨rfl, rfl, rfl⟩,
      fun h => absurd rfl h⟩
    simp only [queryCore, hp12]
    rw [hout]
    rfl
  · have htfks : ∀ x ∈ tf, x ∈ ks := by
      intro x hx
      rcases htf1 x hx with h | h
      · exact absurd h (List.not_mem_nil _)
      · exact h
    have hbqh : ∀ x ∈ tf, ∃ req, dm x = some req ∧ req.specifier ≠ [] := by
      intro x hx
      rcases phase0_mem reqs _ _ _ h0 x (htfks x hx) with ⟨req, h1, h2, _⟩
      exact ⟨req, h1, hspec req h2⟩
    rcases buildQueries_ok dm _ hbqh with ⟨qs, hbq, hqlen⟩
    rcases hfetch qs with ⟨rs, hrs, hrslen, httl⟩
    have hzipttl : ∀ p ∈ tf.zip rs, ∃ n, calculate_ttl p.2.vulns = .ok n := by
      intro p hp
      obtain ⟨a, b⟩ := p
      exact httl b (List.of_mem_zip hp).2
    rcases fetchLoop_props now2 _ c1 m1 hzipttl with ⟨c2, m2, hfl, hflcov, hflmono⟩
    have hmfz : (tf.zip rs).map Prod.fst = tf := by
      apply List.map_fst_zip
      rw [hrslen, hqlen]
    have hie : tf.isEmpty = false := by
      cases tf with
      | nil => exact absurd rfl htf
      | cons a l => rfl
    have hp12 : phase12 fetch now now2 c0 reqs = ⟨ks, tf, ws, c2, m2, [qs], none⟩ := by
      simp only [phase12, h0, hfold, hie, Bool.false_eq_true, if_false, hbq, hrs, hfl]
    rcases waitLoop_props c2 waitO ws m2 with ⟨hwcov, hwmono⟩
    have hallcov : ∀ k ∈ ks, ∃ v, waitLoop c2 waitO ws m2 k = some (some v) := by
      intro k hk
      rcases hcov1 k hk with hm | htfm | hws
      · exact hwmono k (hflmono k hm)
      · exact hwmono k (hflcov k (by rwa [hmfz]))
      · exact hwcov k hws
    rcases assemble_ok _ ks hallcov with ⟨out, hout, _, hopt⟩
    refine ⟨m1, tf, ws, c1, c2, m2, [qs], out, rfl, ?_, hopt,
      fun h => absurd h htf, fun _ => ⟨qs, rs, rfl, hrs, by rw [hrslen, hqlen], hfl⟩⟩
    simp only [queryCore, hp12]
    rw [hout]
    rfl

/-- C4: counterexample.  A `ready` entry for `foo@1.0.0` holds `qvStale`
with an expiry (5) in the past of the call clock (10); the call wins the
`:refresh` claim (the key enters *to-fetch*) and the fetch returns
`qvFresh`.  The claim says the call still returns the stale data; the code
overwrites the phase-1 stale value in the phase-2 store-back loop
(`results[key] = res` for every fetched key), so the call returns the fresh
data instead. -/
theorem C4_counterexample :
    staleCache "foo@1.0.0" = some ⟨"ready", some qvStale, some 5⟩ ∧
    expiryFresh (some 5) 10 = false ∧
    (queryCore okFetch noWait 10 10 staleCache [reqFoo]).to_fetch = ["foo@1.0.0"] ∧
    query_osv_batch okFetch noWait 10 10 staleCache [reqFoo] = .ok ⟨[qvFresh]⟩ ∧
    qvFresh ≠ qvStale := by
  exact ⟨rfl, rfl, rfl, rfl, by decide⟩

/-- C4 (amended): in any batch, for the identity at position `i` with derived
key `k` (assuming the usual external contract and that no derived key
collides with another's `:refresh` guard): if the cache holds a `ready`
entry for `k` whose expiry is in the past and the `:refresh` claim is free,
this call wins the claim, `k` joins *to-fetch*, and position `i` of the
returned batch carries the freshly fetched value — the one stored back into
the cache with the new expiry, drawn from this call's external POST — not
the stale data; an originally cache-absent `k` gets the freshly fetched
value the same way; the stale data is returned at position `i` only when
the `:refresh` claim is lost, and then `k` never joins *to-fetch*. -/
theorem C4_amended_refresh
    (fetch : List String → Except Unit (List QueryVulnerabilities))
    (waitO : String → Option QueryVulnerabilities)
    (now now2 : Nat) (c0 : Cache) (reqs : List Requirement)
    (hspec : ∀ req ∈ reqs, req.specifier ≠ [])
    (hwf : WFCache c0)
    (hfetch : ∀ qs, ∃ rs, fetch qs = .ok rs ∧ rs.length = qs.length ∧
      ∀ r ∈ rs, ∃ n, calculate_ttl r.vulns = .ok n)
    (hdisj : ∀ r1 ∈ reqs, ∀ r2 ∈ reqs, ∀ k1 k2, deriveKey r1 = .ok k1 →
      deriveKey r2 = .ok k2 → k1 ≠ k2 ++ ":refresh")
    (i : Nat) (hi : i < reqs.length) (k : String)
    (hk : deriveKey reqs[i] = .ok k) :
    (∀ d exp, c0 k = some ⟨"ready", some d, exp⟩ →
      expiryFresh exp now = false → c0 (k ++ ":refresh") = none →
      ∃ resp v n qs rs,
        query_osv_batch fetch waitO now now2 c0 reqs = .ok resp ∧
        k ∈ (queryCore fetch waitO now now2 c0 reqs).to_fetch ∧
        (queryCore fetch waitO now now2 c0 reqs).calls = [qs] ∧
        fetch qs = .ok rs ∧ v ∈ rs ∧
        calculate_ttl v.vulns = .ok n ∧
        (queryCore fetch waitO now now2 c0 reqs).cache k =
          some ⟨"ready", some v, some (now2 + n)⟩ ∧
        resp.results[i]? = some v) ∧
    (c0 k = none →
      ∃ resp v n qs rs,
        query_osv_batch fetch waitO now now2 c0 reqs = .ok resp ∧
        k ∈ (queryCore fetch waitO now now2 c0 reqs).to_fetch ∧
        (queryCore fetch waitO now now2 c0 reqs).calls = [qs] ∧
        fetch qs = .ok rs ∧ v ∈ rs ∧
        calculate_ttl v.vulns = .ok n ∧
        (queryCore fetch waitO now now2 c0 reqs).cache k =
          some ⟨"ready", some v, some (now2 + n)⟩ ∧
        resp.results[i]? = some v) ∧
    (∀ d exp g, c0 k = some ⟨"ready", some d, exp⟩ →
      expiryFresh exp now = false → c0 (k ++ ":refresh") = some g →
      ∃ resp,
        query_osv_batch fetch waitO now now2 c0 reqs = .ok resp ∧
        k ∉ (queryCore fetch waitO now now2 c0 reqs).to_fetch ∧
        resp.results[i]? = some d) := by
  rcases phase0_ok reqs (fun _ => none) hspec with ⟨ks, dm, h0⟩
  rcases phase0_keys reqs _ _ _ h0 with ⟨hklen, hkpt⟩
  have hkalign : ks[i]? = some k := by
    rcases hkpt i hi with ⟨k', hks', hdk'⟩
    rw [hk] at hdk'
    injection hdk' with hdk'
    rw [hks', hdk']
  have hkmem : k ∈ ks := List.getElem?_mem hkalign
  have hreqmem : reqs[i] ∈ reqs := List.getElem_mem hi
  have hd1 : ∀ k' ∈ ks, k ≠ k' ++ ":refresh" := by
    intro k' hk'
    rcases phase0_mem reqs _ _ _ h0 k' hk' with ⟨req', _, hreq', hdk'⟩
    exact hdisj reqs[i] hreqmem req' hreq' k k' hk hdk'
  have hd2 : ∀ k' ∈ ks, k ++ ":refresh" ≠ k' := by
    intro k' hk'
    rcases phase0_mem reqs _ _ _ h0 k' hk' with ⟨req', _, hreq', hdk'⟩
    exact (hdisj req' hreq' reqs[i] hreqmem k' k hdk' hk).symm
  rcases queryCore_run_ok fetch waitO now now2 c0 reqs ks dm hwf hfetch hspec h0 with
    ⟨m1, tf, ws, c1, c2, m2, calls, out, hfold, hqc, hpt, hempty, hfull⟩
  have hpick : ∀ v0 : QueryVulnerabilities,
      waitLoop c2 waitO ws m2 k = some (some v0) → out[i]? = some v0 := by
    intro v0 hm3
    rcases hpt i (by rw [hklen]; exact hi) with ⟨k', v', hks', hm', ho'⟩
    rw [hkalign] at hks'
    injection hks' with hks'
    subst hks'
    rw [hm3] at hm'
    injection hm' with hm'
    injection hm' with hm'
    rw [ho', hm']
  refine ⟨?_, ?_, ?_⟩
  · intro d exp hentry hstale hguard
    have hwon : k ∈ tf := by
      have := triageFold_stale_won now ks k d exp ⟨fun _ => none, [], [], c0⟩
        hd1 hd2 hentry hstale hguard hkmem
      rw [hfold] at this
      exact this
    have htfne : tf ≠ [] := by
      intro h
      rw [h] at hwon
      exact absurd hwon (List.not_mem_nil _)
    rcases hfull htfne with ⟨qs, rs, hcalls, hqs, hrslen, hfl⟩
    have hmfz : (tf.zip rs).map Prod.fst = tf := List.map_fst_zip _ _ (le_of_eq hrslen.symm)
    have htfsub : ∀ x ∈ tf, x ∈ ks := by
      intro x hx
      rcases triageFold_props now ks ⟨fun _ => none, [], [], c0⟩ hwf with ⟨_, _, _, h4⟩
      rw [hfold] at h4
      rcases h4 x hx with h | h
      · exact absurd h (List.not_mem_nil _)
      · exact h
    have hrcol : ∀ p ∈ tf.zip rs, k ≠ p.1 ++ ":refresh" := by
      intro p hp
      have hp1 : p.1 ∈ tf := by
        rw [← hmfz]
        exact List.mem_map_of_mem _ hp
      exact hd1 p.1 (htfsub _ hp1)
    rcases fetchLoop_key now2 _ _ _ _ _ hfl k (by rw [hmfz]; exact hwon) hrcol with
      ⟨v, n, hin, httlv, hc2, hm2⟩
    have hm3 : waitLoop c2 waitO ws m2 k = some (some v) :=
      wait_preserve_ready c2 waitO ws k v _ hc2 m2 hm2
    refine ⟨⟨out⟩, v, n, qs, rs, ?_, ?_, ?_, hqs, (List.of_mem_zip hin).2, httlv, ?_, ?_⟩
    · rw [query_osv_batch, hqc]
    · rw [hqc]
      exact hwon
    · rw [hqc]
      exact hcalls
    · rw [hqc]
      exact hc2
    · exact hpick v hm3
  · intro hnone
    have hwon : k ∈ tf := by
      have := (triageFold_claim now ks k hd1 ⟨fun _ => none, [], [], c0⟩ hnone hkmem).2
      rw [hfold] at this
      exact this
    have htfne : tf ≠ [] := by
      intro h
      rw [h] at hwon
      exact absurd hwon (List.not_mem_nil _)
    rcases hfull htfne with ⟨qs, rs, hcalls, hqs, hrslen, hfl⟩
    have hmfz : (tf.zip rs).map Prod.fst = tf := List.map_fst_zip _ _ (le_of_eq hrslen.symm)
    have htfsub : ∀ x ∈ tf, x ∈ ks := by
      intro x hx
      rcases triageFold_props now ks ⟨fun _ => none, [], [], c0⟩ hwf with ⟨_, _, _, h4⟩
      rw [hfold] at h4
      rcases h4 x hx with h | h
      · exact absurd h (List.not_mem_nil _)
      · exact h
    have hrcol : ∀ p ∈ tf.zip rs, k ≠ p.1 ++ ":refresh" := by
      intro p hp
      have hp1 : p.1 ∈ tf := by
        rw [← hmfz]
        exact List.mem_map_of_mem _ hp
      exact hd1 p.1 (htfsub _ hp1)
    rcases fetchLoop_key now2 _ _ _ _ _ hfl k (by rw [hmfz]; exact hwon) hrcol with
      ⟨v, n, hin, httlv, hc2, hm2⟩
    have hm3 : waitLoop c2 waitO ws m2 k = some (some v) :=
      wait_preserve_ready c2 waitO ws k v _ hc2 m2 hm2
    refine ⟨⟨out⟩, v, n, qs, rs, ?_, ?_, ?_, hqs, (List.of_mem_zip hin).2, httlv, ?_, ?_⟩
    · rw [query_osv_batch, hqc]
    · rw [hqc]
      exact hwon
    · rw [hqc]
      exact hcalls
    · rw [hqc]
      exact hc2
    · exact hpick v hm3
  · intro d exp g hentry hstale hguard
    have hlost := triageFold_stale_lost now ks k d exp ⟨fun _ => none, [], [], c0⟩
      hd1 hentry hstale
      (by show (c0 (k ++ ":refresh")).isSome = true; rw [hguard]; rfl)
      (List.not_mem_nil _)
    rw [hfold] at hlost
    rcases hlost with ⟨hc1, htf1k, hm1k, _⟩
    have hm1 : m1 k = some (some d) := hm1k hkmem
    have hready : ∀ hc2' : c2 k = some ⟨"ready", some d, exp⟩,
        ∀ hm2' : m2 k = some (some d),
        waitLoop c2 waitO ws m2 k = some (some d) := fun hc2' hm2' =>
      wait_preserve_ready c2 waitO ws k d _ hc2' m2 hm2'
    by_cases htf : tf = []
    · rcases hempty htf with ⟨rfl, rfl, _⟩
      have hm3 : waitLoop c2 waitO ws m2 k = some (some d) := hready hc1 hm1
      refine ⟨⟨out⟩, ?_, ?_, hpick d hm3⟩
      · rw [query_osv_batch, hqc]
      · rw [hqc]
        subst htf
        exact List.not_mem_nil _
    · rcases hfull htf with ⟨qs, rs, _, _, hrslen, hfl⟩
      have hmfz : (tf.zip rs).map Prod.fst = tf := List.map_fst_zip _ _ (le_of_eq hrslen.symm)
      have htfsub : ∀ x ∈ tf, x ∈ ks := by
        intro x hx
        rcases triageFold_props now ks ⟨fun _ => none, [], [], c0⟩ hwf with ⟨_, _, _, h4⟩
        rw [hfold] at h4
        rcases h4 x hx with h | h
        · exact absurd h (List.not_mem_nil _)
        · exact h
      have hrcol : ∀ p ∈ tf.zip rs, k ≠ p.1 ++ ":refresh" := by
        intro p hp
        have hp1 : p.1 ∈ tf := by
          rw [← hmfz]
          exact List.mem_map_of_mem _ hp
        exact hd1 p.1 (htfsub _ hp1)
      rcases fetchLoop_preserve now2 _ _ _ _ _ _ hfl k (by rw [hmfz]; exact htf1k)
        hrcol with ⟨hc2k, hm2k⟩
      have hm3 : waitLoop c2 waitO ws m2 k = some (some d) :=
        hready (by rw [hc2k]; exact hc1) (by rw [hm2k]; exact hm1)
      refine ⟨⟨out⟩, ?_, ?_, hpick d hm3⟩
      · rw [query_osv_batch, hqc]
      · rw [hqc]
        exact htf1k

/-- C4 (amended) witness: `Foo==1.0.0` alone in the batch — a free refresh
guard on the stale entry yields the fetched `qvFresh` at position 0 and a
refreshed cache entry; an empty cache yields the same shape; a held guard
serves the stale `qvStale` at position 0 with nothing to fetch. -/
theorem C4_amended_refresh_witness :
    (∃ resp v n qs rs,
      query_osv_batch okFetch noWait 10 10 staleCache [reqFoo] = .ok resp ∧
      "foo@1.0.0" ∈ (queryCore okFetch noWait 10 10 staleCache [reqFoo]).to_fetch ∧
      (queryCore okFetch noWait 10 10 staleCache [reqFoo]).calls = [qs] ∧
      okFetch qs = .ok rs ∧ v ∈ rs ∧
      calculate_ttl v.vulns = .ok n ∧
      (queryCore okFetch noWait 10 10 staleCache [reqFoo]).cache "foo@1.0.0" =
        some ⟨"ready", some v, some (10 + n)⟩ ∧
      resp.results[0]? = some v) ∧
    (∃ resp v n qs rs,
      query_osv_batch okFetch noWait 10 10 emptyCache [reqFoo] = .ok resp ∧
      "foo@1.0.0" ∈ (queryCore okFetch noWait 10 10 emptyCache [reqFoo]).to_fetch ∧
      (queryCore okFetch noWait 10 10 emptyCache [reqFoo]).calls = [qs] ∧
      okFetch qs = .ok rs ∧ v ∈ rs ∧
      calculate_ttl v.vulns = .ok n ∧
      (queryCore okFetch noWait 10 10 emptyCache [reqFoo]).cache "foo@1.0.0" =
        some ⟨"ready", some v, some (10 + n)⟩ ∧
      resp.results[0]? = some v) ∧
    (∃ resp,
      query_osv_batch okFetch noWait 10 10 staleGuardCache [reqFoo] = .ok resp ∧
      "foo@1.0.0" ∉ (queryCore okFetch noWait 10 10 staleGuardCache [reqFoo]).to_fetch ∧
      resp.results[0]? = some qvStale) := by
  have hspec : ∀ req ∈ [reqFoo], req.specifier ≠ [] := by decide
  have hfetch : ∀ qs, ∃ rs, okFetch qs = .ok rs ∧ rs.length = qs.length ∧
      ∀ r ∈ rs, ∃ n, calculate_ttl r.vulns = .ok n := by
    intro qs
    refine ⟨qs.map (fun _ => qvFresh), rfl, by simp, ?_⟩
    intro r hr
    rcases List.mem_map.mp hr with ⟨q, _, rfl⟩
    exact ⟨86400, rfl⟩
  have hdisj : ∀ r1 ∈ [reqFoo], ∀ r2 ∈ [reqFoo], ∀ k1 k2, deriveKey r1 = .ok k1 →
      deriveKey r2 = .ok k2 → k1 ≠ k2 ++ ":refresh" := by
    intro r1 h1 r2 h2 k1 k2 hk1 hk2
    have e1 : r1 = reqFoo := List.mem_singleton.mp h1
    have e2 : r2 = reqFoo := List.mem_singleton.mp h2
    subst e1
    subst e2
    rw [show deriveKey reqFoo = .ok "foo@1.0.0" from rfl] at hk1 hk2
    injection hk1 with hk1
    injection hk2 with hk2
    subst hk1
    subst hk2
    decide
  have hwf1 : WFCache staleCache := by
    intro x e h
    by_cases hx : x = "foo@1.0.0"
    · rw [show staleCache x = some ⟨"ready", some qvStale, some 5⟩ by
        simp [staleCache, hx]] at h
      injection h with h
      rw [← h]
      exact Or.inr ⟨rfl, rfl⟩
    · rw [show staleCache x = none by simp [staleCache, hx]] at h
      cases h
  have hwf2 : WFCache emptyCache := by
    intro x e h
    cases h
  have hwf3 : WFCache staleGuardCache := by
    intro x e h
    by_cases hx1 : x = "foo@1.0.0:refresh"
    · rw [show staleGuardCache x = some fetchingEntry by
        simp [staleGuardCache, hx1]] at h
      injection h with h
      rw [← h]
      exact Or.inl rfl
    · by_cases hx2 : x = "foo@1.0.0"
      · rw [show staleGuardCache x = some ⟨"ready", some qvStale, some 5⟩ by
          simp [staleGuardCache, hx1, hx2]] at h
        injection h with h
        rw [← h]
        exact Or.inr ⟨rfl, rfl⟩
      · rw [show staleGuardCache x = none by simp [staleGuardCache, hx1, hx2]] at h
        cases h
  refine ⟨?_, ?_, ?_⟩
  · exact (C4_amended_refresh okFetch noWait 10 10 staleCache [reqFoo] hspec hwf1
      hfetch hdisj 0 (by decide) "foo@1.0.0" rfl).1 qvStale (some 5) rfl rfl rfl
  · exact (C4_amended_refresh okFetch noWait 10 10 emptyCache [reqFoo] hspec hwf2
      hfetch hdisj 0 (by decide) "foo@1.0.0" rfl).2.1 rfl
  · exact (C4_amended_refresh okFetch noWait 10 10 staleGuardCache [reqFoo] hspec hwf3
      hfetch hdisj 0 (by decide) "foo@1.0.0" rfl).2.2 qvStale (some 5) fetchingEntry
      rfl rfl rfl

/-- C7: counterexample.  A `ready` entry with an absent (null) expiry
timestamp: the claim says the orchestrator treats it as never stale — no
`:refresh` claim, no *to-fetch*.  The code's staleness test
`entry.expiry_timestamp and entry.expiry_timestamp > now` is falsy for an
absent timestamp, so the entry takes the stale branch: the identity joins
*to-fetch*, a fetch is issued, and (shown with a failing fetch, which keeps
the guard) the `:refresh` guard key was claimed. -/
theorem C7_counterexample :
    noExpiryCache "foo@1.0.0" = some ⟨"ready", some qvStale, none⟩ ∧
    (queryCore okFetch noWait 10 10 noExpiryCache [reqFoo]).to_fetch =
      ["foo@1.0.0"] ∧
    (queryCore okFetch noWait 10 10 noExpiryCache [reqFoo]).calls =
      [["pkg:pypi/Foo@1.0.0"]] ∧
    (queryCore badFetch noWait 10 10 noExpiryCache [reqFoo]).cache
      "foo@1.0.0:refresh" = some fetchingEntry := by
  exact ⟨rfl, rfl, rfl, rfl⟩

/-- C7 (amended): a `ready` entry whose expiry timestamp is absent is
treated as stale by the triage: the entry's data is recorded, a `:refresh`
claim is attempted, and when the claim succeeds the identity joins
*to-fetch*, one fetch is issued and the freshly fetched data is returned;
when the claim is lost, the entry's data is served with nothing fetched. -/
theorem C7_absent_expiry_amended
    (fetch : List String → Except Unit (List QueryVulnerabilities))
    (waitO : String → Option QueryVulnerabilities)
    (now now2 : Nat) (c0 : Cache) (req : Requirement) (sp : Specifier)
    (d res : QueryVulnerabilities) (n : Nat)
    (hsp : req.specifier.head? = some sp)
    (hentry : c0 (pyLower req.name ++ "@" ++ sp.version) =
      some ⟨"ready", some d, none⟩) :
    (c0 (pyLower req.name ++ "@" ++ sp.version ++ ":refresh") = none →
      fetch ["pkg:pypi/" ++ req.name ++ "@" ++ sp.version] = .ok [res] →
      calculate_ttl res.vulns = .ok n →
      (queryCore fetch waitO now now2 c0 [req]).to_fetch =
        [pyLower req.name ++ "@" ++ sp.version] ∧
      (queryCore fetch waitO now now2 c0 [req]).calls =
        [["pkg:pypi/" ++ req.name ++ "@" ++ sp.version]] ∧
      query_osv_batch fetch waitO now now2 c0 [req] = .ok ⟨[res]⟩) ∧
    (∀ g, c0 (pyLower req.name ++ "@" ++ sp.version ++ ":refresh") = some g →
      query_osv_batch fetch waitO now now2 c0 [req] = .ok ⟨[d]⟩ ∧
      (queryCore fetch waitO now now2 c0 [req]).to_fetch = []) := by
  constructor
  · intro hguard hfetch httl
    rcases stale_refresh_run fetch waitO now now2 c0 req sp d res none n hsp
      hentry rfl hguard hfetch httl with ⟨h1, h2, h3, _⟩
    exact ⟨h2, h3, h1⟩
  · intro g hguard
    rcases stale_serve_run fetch waitO now now2 c0 req sp d none g hsp hentry
      rfl hguard with ⟨h1, h2, _⟩
    exact ⟨h1, h2⟩

/-- C7 (amended) witness: the absent-expiry `foo@1.0.0` entry triggers a
refresh fetch when the guard is free, and is served stale with no fetch
when the guard is held. -/
theorem C7_absent_expiry_amended_witness :
    ((queryCore okFetch noWait 10 10 noExpiryCache [reqFoo]).to_fetch =
        ["foo@1.0.0"] ∧
      (queryCore okFetch noWait 10 10 noExpiryCache [reqFoo]).calls =
        [["pkg:pypi/Foo@1.0.0"]] ∧
      query_osv_batch okFetch noWait 10 10 noExpiryCache [reqFoo] =
        .ok ⟨[qvFresh]⟩) ∧
    (query_osv_batch okFetch noWait 10 10 noExpiryGuardCache [reqFoo] =
        .ok ⟨[qvStale]⟩ ∧
      (queryCore okFetch noWait 10 10 noExpiryGuardCache [reqFoo]).to_fetch = []) := by
  exact ⟨(C7_absent_expiry_amended okFetch noWait 10 10 noExpiryCache reqFoo
      ⟨"1.0.0"⟩ qvStale qvFresh 86400 rfl rfl).1 rfl rfl rfl,
    (C7_absent_expiry_amended okFetch noWait 10 10 noExpiryGuardCache reqFoo
      ⟨"1.0.0"⟩ qvStale qvFresh 86400 rfl rfl).2 fetchingEntry rfl⟩

end Aegis

namespace Aegis

theorem loserInv_of_otherInv {d : QueryVulnerabilities} {cs : CallerSt}
    (h : otherInv cs) : loserInv d cs := by
  rcases h with ⟨hc, hf⟩
  refine ⟨?_, hf⟩
  rcases hc with h | h | h | h
  · exact Or.inl h
  · exact Or.inr (Or.inl h)
  · exact Or.inr (Or.inr (Or.inl h))
  · exact Or.inr (Or.inr (Or.inr (Or.inr h)))

theorem InvSym_symm {k : String} {d : QueryVulnerabilities} {exp : Nat}
    {c : Cache} {x y : CallerSt} (h : InvSym k d exp c x y) :
    InvSym k d exp c y x := by
  rcases h with ⟨hc, hx, hy, hxf, hyf⟩ | ⟨hc, ho⟩ | ⟨hc, hw⟩
  · exact Or.inl ⟨hc, hy, hx, hyf, hxf⟩
  · exact Or.inr (Or.inl ⟨hc, ho.symm⟩)
  · exact Or.inr (Or.inr ⟨hc, hw.symm⟩)

theorem InvSym_step (k : String) (d : QueryVulnerabilities) (exp now fuel0 : Nat)
    (hexp : now < exp) (c : Cache) (x y : CallerSt)
    (hinv : InvSym k d exp c x y) :
    InvSym k d exp (callerStep k d exp now fuel0 c x).1
      (callerStep k d exp now fuel0 c x).2 y := by
  obtain ⟨xc, xf⟩ := x
  rcases hinv with ⟨hc, hx, hy, hxf, hyf⟩ | ⟨hc, hown⟩ | ⟨hc, hwin⟩
  · -- key absent
    dsimp only at hx hxf
    subst hxf
    rcases hx with hx | hx
    · subst hx
      simp only [callerStep, Cache.get, hc]
      exact Or.inl ⟨hc, Or.inr rfl, hy, rfl, hyf⟩
    · subst hx
      have hadd := add_of_none (c := c) (k := k) hc fetchingEntry
      simp only [callerStep, hadd, if_true]
      refine Or.inr (Or.inl ⟨by simp [Cache.set], Or.inl ⟨Or.inl ⟨rfl, rfl⟩, ?_⟩⟩)
      refine ⟨?_, hyf⟩
      rcases hy with h | h
      · exact Or.inl h
      · exact Or.inr (Or.inl h)
  · -- key claimed
    rcases hown with ⟨hox, hoy⟩ | ⟨hoy, hox⟩
    · -- the stepping caller owns the claim
      rcases hox with ⟨hctl, hf⟩ | ⟨hctl, hf⟩
      · dsimp only at hctl hf
        subst hctl
        subst hf
        simp only [callerStep]
        exact Or.inr (Or.inl ⟨hc, Or.inl ⟨Or.inr ⟨rfl, rfl⟩, hoy⟩⟩)
      · dsimp only at hctl hf
        subst hctl
        subst hf
        simp only [callerStep]
        exact Or.inr (Or.inr ⟨by simp [Cache.set], Or.inl ⟨⟨rfl, rfl⟩,
          loserInv_of_otherInv hoy⟩⟩)
    · -- the other caller steps while y owns the claim
      rcases hox with ⟨hxc, hxf⟩
      dsimp only at hxc hxf
      subst hxf
      rcases hxc with hxc | hxc | ⟨n, hxc⟩ | hxc
      · subst hxc
        simp only [callerStep, Cache.get, hc, fetchingEntry, if_true, if_false]
        exact Or.inr (Or.inl ⟨hc, Or.inr ⟨hoy,
          ⟨Or.inr (Or.inr (Or.inl ⟨fuel0, rfl⟩)), rfl⟩⟩⟩)
      · subst hxc
        have hadd := add_of_some (c := c) (k := k) hc fetchingEntry
        simp only [callerStep, hadd, Bool.false_eq_true, if_false]
        exact Or.inr (Or.inl ⟨hc, Or.inr ⟨hoy,
          ⟨Or.inr (Or.inr (Or.inl ⟨fuel0, rfl⟩)), rfl⟩⟩⟩)
      · subst hxc
        cases n with
        | zero =>
          simp only [callerStep]
          exact Or.inr (Or.inl ⟨hc, Or.inr ⟨hoy,
            ⟨Or.inr (Or.inr (Or.inr rfl)), rfl⟩⟩⟩)
        | succ n =>
          simp only [callerStep, Cache.get, hc, fetchingEntry, if_true, if_false]
          exact Or.inr (Or.inl ⟨hc, Or.inr ⟨hoy,
            ⟨Or.inr (Or.inr (Or.inl ⟨n, rfl⟩)), rfl⟩⟩⟩)
      · subst hxc
        simp only [callerStep]
        exact Or.inr (Or.inl ⟨hc, Or.inr ⟨hoy,
          ⟨Or.inr (Or.inr (Or.inr rfl)), rfl⟩⟩⟩)
  · -- key published
    rcases hwin with ⟨hwx, hly⟩ | ⟨hwy, hlx⟩
    · rcases hwx with ⟨hctl, hf⟩
      dsimp only at hctl hf
      subst hctl
      subst hf
      simp only [callerStep]
      exact Or.inr (Or.inr ⟨hc, Or.inl ⟨⟨rfl, rfl⟩, hly⟩⟩)
    · rcases hlx with ⟨hxc, hxf⟩
      dsimp only at hxc hxf
      subst hxf
      rcases hxc with hxc | hxc | ⟨n, hxc⟩ | hxc | hxc
      · subst hxc
        simp only [callerStep, Cache.get, hc, if_true]
        rw [show expiryFresh (some exp) now = true by
          simpa [expiryFresh] using hexp]
        simp only [if_true]
        exact Or.inr (Or.inr ⟨hc, Or.inr ⟨hwy,
          ⟨Or.inr (Or.inr (Or.inr (Or.inl rfl))), rfl⟩⟩⟩)
      · subst hxc
        have hadd := add_of_some (c := c) (k := k) hc fetchingEntry
        simp only [callerStep, hadd, Bool.false_eq_true, if_false]
        exact Or.inr (Or.inr ⟨hc, Or.inr ⟨hwy,
          ⟨Or.inr (Or.inr (Or.inl ⟨fuel0, rfl⟩)), rfl⟩⟩⟩)
      · subst hxc
        cases n with
        | zero =>
          simp only [callerStep]
          exact Or.inr (Or.inr ⟨hc, Or.inr ⟨hwy,
            ⟨Or.inr (Or.inr (Or.inr (Or.inr rfl))), rfl⟩⟩⟩)
        | succ n =>
          simp only [callerStep, Cache.get, hc, if_true]
          exact Or.inr (Or.inr ⟨hc, Or.inr ⟨hwy,
            ⟨Or.inr (Or.inr (Or.inr (Or.inl rfl))), rfl⟩⟩⟩)
      · subst hxc
        simp only [callerStep]
        exact Or.inr (Or.inr ⟨hc, Or.inr ⟨hwy,
          ⟨Or.inr (Or.inr (Or.inr (Or.inl rfl))), rfl⟩⟩⟩)
      · subst hxc
        simp only [callerStep]
        exact Or.inr (Or.inr ⟨hc, Or.inr ⟨hwy,
          ⟨Or.inr (Or.inr (Or.inr (Or.inr rfl))), rfl⟩⟩⟩)

end Aegis

namespace Aegis

theorem InvSym_sysStep (k : String) (d : QueryVulnerabilities)
    (exp now fuel0 : Nat) (hexp : now < exp) (s : Sys) (who : Bool)
    (hinv : InvSym k d exp s.cache s.a s.b) :
    InvSym k d exp (sysStep k d exp now fuel0 s who).cache
      (sysStep k d exp now fuel0 s who).a (sysStep k d exp now fuel0 s who).b := by
  cases who with
  | true =>
    simp only [sysStep, if_true]
    exact InvSym_step k d exp now fuel0 hexp s.cache s.a s.b hinv
  | false =>
    simp only [sysStep, Bool.false_eq_true, if_false]
    exact InvSym_symm
      (InvSym_step k d exp now fuel0 hexp s.cache s.b s.a (InvSym_symm hinv))

theorem InvSym_run (k : String) (d : QueryVulnerabilities)
    (exp now fuel0 : Nat) (hexp : now < exp) (sched : List Bool) :
    ∀ s : Sys, InvSym k d exp s.cache s.a s.b →
      InvSym k d exp (sched.foldl (sysStep k d exp now fuel0) s).cache
        (sched.foldl (sysStep k d exp now fuel0) s).a
        (sched.foldl (sysStep k d exp now fuel0) s).b := by
  induction sched with
  | nil => exact fun s h => h
  | cons w sched ih =>
    intro s h
    rw [List.foldl_cons]
    exact ih _ (InvSym_sysStep k d exp now fuel0 hexp s w h)

theorem inv_runSched (k : String) (d : QueryVulnerabilities)
    (exp now fuel0 : Nat) (hexp : now < exp) (sched : List Bool) :
    InvSym k d exp (runSched k d exp now fuel0 sched).cache
      (runSched k d exp now fuel0 sched).a
      (runSched k d exp now fuel0 sched).b :=
  InvSym_run k d exp now fuel0 hexp sched initSys
    (Or.inl ⟨rfl, Or.inl rfl, Or.inl rfl, rfl, rfl⟩)

theorem InvSym_conclusions {k : String} {d : QueryVulnerabilities} {exp : Nat}
    {c : Cache} {x y : CallerSt} (h : InvSym k d exp c x y) :
    ¬(x.fetched = true ∧ y.fetched = true) ∧
    ¬(holdsClaim x ∧ holdsClaim y) ∧
    (isDone x → isDone y → (x.fetched = true ↔ ¬y.fetched = true)) ∧
    (∀ r : QueryVulnerabilities,
      (x.ctl = .doneC r false ∨ y.ctl = .doneC r false) → r = d) := by
  obtain ⟨xc, xf⟩ := x
  obtain ⟨yc, yf⟩ := y
  rcases h with ⟨hc, hx, hy, hxf, hyf⟩ |
    ⟨hc, ⟨hox, hoy⟩ | ⟨hoy, hox⟩⟩ | ⟨hc, ⟨hwx, hly⟩ | ⟨hwy, hlx⟩⟩ <;>
    refine ⟨?_, ?_, ?_, ?_⟩ <;>
    simp_all [holdsClaim, isDone, ownerInv, otherInv, winnerDone, loserInv] <;>
    aesop

end Aegis

namespace Aegis

/-- C2: the at-most-one-fetch race.  For two concurrent callers racing on
the same initially-uncached key, under every interleaving of their atomic
steps (each cache primitive, the external fetch, each poll): at most one
caller ever issues the external fetch and at most one holds the `fetching`
claim (`add_if_not_exists` has one winner per key); when both complete,
exactly one of them fetched; and every caller that finishes without a wait
timeout — the winner, a waiter woken by the published entry, or a late
arrival served from cache — holds exactly the fetched data `d`.  The
expiry the winner stores lies in the future (`now < exp`), matching a
positive TTL. -/
theorem C2_at_most_one_fetch (k : String) (d : QueryVulnerabilities)
    (exp now fuel0 : Nat) (hexp : now < exp) (sched : List Bool) :
    ¬((runSched k d exp now fuel0 sched).a.fetched = true ∧
      (runSched k d exp now fuel0 sched).b.fetched = true) ∧
    ¬(holdsClaim (runSched k d exp now fuel0 sched).a ∧
      holdsClaim (runSched k d exp now fuel0 sched).b) ∧
    (isDone (runSched k d exp now fuel0 sched).a →
      isDone (runSched k d exp now fuel0 sched).b →
      ((runSched k d exp now fuel0 sched).a.fetched = true ↔
        ¬(runSched k d exp now fuel0 sched).b.fetched = true)) ∧
    (∀ r : QueryVulnerabilities,
      ((runSched k d exp now fuel0 sched).a.ctl = .doneC r false ∨
        (runSched k d exp now fuel0 sched).b.ctl = .doneC r false) → r = d) :=
  InvSym_conclusions (inv_runSched k d exp now fuel0 hexp sched)

/-- C2 witness: a concrete interleaving in which caller A claims and
fetches while caller B loses the claim, polls, and receives A's data via
the wait path — exactly one fetch, both ending with `qvFresh`. -/
theorem C2_at_most_one_fetch_witness :
    (runSched "foo@1.0.0" qvFresh 1 0 1 [true, false, true, false, true, true, false]).a
      = ⟨.doneC qvFresh false, true⟩ ∧
    (runSched "foo@1.0.0" qvFresh 1 0 1 [true, false, true, false, true, true, false]).b
      = ⟨.doneC qvFresh false, false⟩ ∧
    (0 : Nat) < 1 ∧
    (∀ r : QueryVulnerabilities,
      ((runSched "foo@1.0.0" qvFresh 1 0 1
          [true, false, true, false, true, true, false]).a.ctl = .doneC r false ∨
        (runSched "foo@1.0.0" qvFresh 1 0 1
          [true, false, true, false, true, true, false]).b.ctl = .doneC r false) →
      r = qvFresh) := by
  refine ⟨by decide, by decide, by decide, ?_⟩
  exact (C2_at_most_one_fetch "foo@1.0.0" qvFresh 1 0 1 (by decide)
    [true, false, true, false, true, true, false]).2.2.2

end Aegis
